import Mathlib

/-!
Verification of the schema/type resolution and code-generation engine of the
google-discovery-mcp repository (package `discovery`).

Go strings are byte sequences; we model them as `List Char` (each `Char`
standing for one byte) for description processing, and as Lean `String`
(compared through its character list, which for valid UTF-8 agrees with Go's
byte-wise comparison) for names and identifiers.

Maps (`map[string]*Schema`, `map[string]*Parameter`, …) are modelled as
association lists; Go's unspecified map iteration order corresponds to
quantifying over permutations of these lists.
-/

namespace Discovery

/-! ### Byte/character order (Go's `<` on strings is byte-lexicographic) -/

def charLtB (a b : Char) : Bool := decide (a.toNat < b.toNat)

/-- Go string `<` (lexicographic). -/
def strLtB : List Char → List Char → Bool
  | [], [] => false
  | [], _ :: _ => true
  | _ :: _, [] => false
  | a :: as, b :: bs => charLtB a b || (a = b && strLtB as bs)

/-- Go string `<=` (lexicographic), used to state sortedness. -/
def strLeB : List Char → List Char → Bool
  | [], _ => true
  | _ :: _, [] => false
  | a :: as, b :: bs => charLtB a b || (a = b && strLeB as bs)

def strLt (a b : String) : Bool := strLtB a.data b.data

def strLe (a b : String) : Bool := strLeB a.data b.data

/-! ### Data model (`types.go`): the parsed Discovery Document -/

/-- `Annotations` contains metadata about schema fields. -/
structure Annotations where
  required : List String
deriving DecidableEq

/-- `Schema` represents a JSON Schema in the Discovery Document.
`Properties`, `Items` and `AdditionalProperties` make the type recursive;
`Ref` names another schema in the document's schema mapping (the name graph
may be cyclic). -/
inductive Schema where
  | mk
    (id type format : String)
    (description : List Char)
    (properties : List (String × Schema))
    (items : Option Schema)
    (additionalProperties : Option Schema)
    (ref : String)
    (default : String)
    (enum : List String)
    (required readOnly : Bool)
    (annotations : Option Annotations)

def Schema.id : Schema → String
  | .mk i _ _ _ _ _ _ _ _ _ _ _ _ => i

def Schema.type : Schema → String
  | .mk _ t _ _ _ _ _ _ _ _ _ _ _ => t

def Schema.format : Schema → String
  | .mk _ _ f _ _ _ _ _ _ _ _ _ _ => f

def Schema.description : Schema → List Char
  | .mk _ _ _ d _ _ _ _ _ _ _ _ _ => d

def Schema.properties : Schema → List (String × Schema)
  | .mk _ _ _ _ p _ _ _ _ _ _ _ _ => p

def Schema.items : Schema → Option Schema
  | .mk _ _ _ _ _ i _ _ _ _ _ _ _ => i

def Schema.additionalProperties : Schema → Option Schema
  | .mk _ _ _ _ _ _ a _ _ _ _ _ _ => a

def Schema.ref : Schema → String
  | .mk _ _ _ _ _ _ _ r _ _ _ _ _ => r

def Schema.default : Schema → String
  | .mk _ _ _ _ _ _ _ _ d _ _ _ _ => d

def Schema.enum : Schema → List String
  | .mk _ _ _ _ _ _ _ _ _ e _ _ _ => e

def Schema.required : Schema → Bool
  | .mk _ _ _ _ _ _ _ _ _ _ r _ _ => r

def Schema.readOnly : Schema → Bool
  | .mk _ _ _ _ _ _ _ _ _ _ _ r _ => r

def Schema.annotations : Schema → Option Annotations
  | .mk _ _ _ _ _ _ _ _ _ _ _ _ a => a

/-- `Parameter` represents a method parameter. -/
structure Parameter where
  type : String
  description : List Char
  required : Bool
  location : String
  repeated : Bool
  default : String
  enum : List String
  format : String
  pattern : String
deriving DecidableEq

/-- `SchemaRef` is a reference to a schema. -/
structure SchemaRef where
  ref : String
deriving DecidableEq

/-- `Method` represents an API method. -/
structure Method where
  id : String
  path : String
  httpMethod : String
  description : List Char
  parameters : List (String × Parameter)
  parameterOrder : List String
  request : Option SchemaRef
  response : Option SchemaRef
  scopes : List String
deriving DecidableEq

/-- `Resource` represents an API resource; nesting is tree-shaped. -/
inductive Resource where
  | mk
    (methods : List (String × Method))
    (resources : List (String × Resource))

def Resource.methods : Resource → List (String × Method)
  | .mk m _ => m

def Resource.resources : Resource → List (String × Resource)
  | .mk _ r => r

/-- `Document` represents a Google API Discovery Document. -/
structure Document where
  id : String
  name : String
  version : String
  title : String
  description : List Char
  schemas : List (String × Schema)
  resources : List (String × Resource)
  methods : List (String × Method)
  parameters : List (String × Parameter)

/-- Go map indexing `m[k]` on our association-list model (keys are unique in
a Go map, so first-match lookup is faithful). -/
def lookupName {α : Type} : List (String × α) → String → Option α
  | [], _ => none
  | (n, v) :: rest, k => if n = k then some v else lookupName rest k

/-! ### Method collection (`types.go`): flattening the resource tree -/

mutual
/-- `collectMethods` walks one resource, prefixing method names. -/
def collectMethods (pfx : String) (r : Resource) : List (String × Method) :=
  match r with
  | .mk methods resources =>
    methods.map (fun p => (pfx ++ "." ++ p.1, p.2)) ++ collectMethodsList pfx resources

def collectMethodsList (pfx : String) : List (String × Resource) → List (String × Method)
  | [] => []
  | (subName, subResource) :: rest =>
    collectMethods (pfx ++ "." ++ subName) subResource ++ collectMethodsList pfx rest
end

/-- `Document.AllMethods`: all methods flattened with full dotted names. -/
def Document.AllMethods (d : Document) : List (String × Method) :=
  d.methods ++ collectMethodsList' d.resources
where
  collectMethodsList' : List (String × Resource) → List (String × Method)
    | [] => []
    | (resourceName, resource) :: rest =>
      collectMethods resourceName resource ++ collectMethodsList' rest

/-- `sort.Strings`: ascending byte-lexicographic sort (modelled by insertion
sort; Go's sort is any sort consistent with the order). -/
def sortStrings (l : List String) : List String :=
  List.insertionSort (fun a b => strLe a b = true) l

/-- `Document.SortedMethodNames`: method names in sorted order. -/
def Document.SortedMethodNames (d : Document) : List String :=
  sortStrings (d.AllMethods.map Prod.fst)

/-! ### Description sanitization (`generate.go`, `cleanDescription`) -/

/-- ASCII fragment of Go's `unicode.IsSpace` (inputs are byte strings). -/
def goIsSpace (c : Char) : Bool :=
  c = ' ' || c = '\t' || c = '\n' || c = '\r' || c = '\x0b' || c = '\x0c'

/-- `strings.ReplaceAll(s, string(a), string(b))` for a single-byte pattern. -/
def replaceChar (a b : Char) (s : List Char) : List Char :=
  s.map (fun c => if c = a then b else c)

/-- `strings.TrimSpace`. -/
def trimSpace (s : List Char) : List Char :=
  ((s.dropWhile goIsSpace).reverse.dropWhile goIsSpace).reverse

/-- `strings.Contains(s, "  ")`. -/
def hasDoubleSpace : List Char → Bool
  | c1 :: c2 :: rest => (c1 = ' ' && c2 = ' ') || hasDoubleSpace (c2 :: rest)
  | _ => false

/-- `strings.ReplaceAll(s, "  ", " ")`: one left-to-right non-overlapping
replacement pass. -/
def collapseOnce : List Char → List Char
  | ' ' :: ' ' :: rest => ' ' :: collapseOnce rest
  | c :: rest => c :: collapseOnce rest
  | [] => []

theorem collapseOnce_length_le (s : List Char) : (collapseOnce s).length ≤ s.length := by
  induction s using collapseOnce.induct <;> simp [collapseOnce] <;> omega

theorem collapseOnce_length_lt (s : List Char) (h : hasDoubleSpace s = true) :
    (collapseOnce s).length < s.length := by
  induction s using collapseOnce.induct with
  | case1 rest _ =>
    have := collapseOnce_length_le rest
    simp [collapseOnce]; omega
  | case2 c rest hne ih =>
    cases rest with
    | nil => simp [hasDoubleSpace] at h
    | cons c2 rest' =>
      simp only [hasDoubleSpace, Bool.or_eq_true, Bool.and_eq_true, decide_eq_true_eq] at h
      rw [collapseOnce.eq_2 _ _ hne]
      rcases h with ⟨h1, h2⟩ | h
      · exact (hne rest' h1 (by rw [h2])).elim
      · have := ih h
        have hle := collapseOnce_length_le (c2 :: rest')
        simp only [List.length_cons] at *
        omega
  | case3 => simp [hasDoubleSpace] at h

/-- The `for strings.Contains(desc, "  ")` collapse loop in `cleanDescription`;
its totality (well-founded on the string length) is the loop's termination. -/
def collapseSpaces (s : List Char) : List Char :=
  if h : hasDoubleSpace s = true then collapseSpaces (collapseOnce s) else s
termination_by s.length
decreasing_by exact collapseOnce_length_lt s h

theorem collapseSpaces_step (s : List Char) (h : hasDoubleSpace s = true) :
    collapseSpaces s = collapseSpaces (collapseOnce s) := by
  rw [collapseSpaces]
  simp [h]

theorem collapseSpaces_done (s : List Char) (h : hasDoubleSpace s = false) :
    collapseSpaces s = s := by
  rw [collapseSpaces]
  simp [h]

/-- `cleanDescription` sanitizes a description (`Char.ofNat 96` is the
backtick character). -/
def cleanDescription (desc : List Char) : List Char :=
  let d1 := replaceChar '\n' ' ' desc
  let d2 := replaceChar '"' '\'' d1
  let d3 := replaceChar (Char.ofNat 96) '\'' d2
  let d4 := trimSpace d3
  collapseSpaces d4

/-! ### Identifier normalization (`generate.go`, `exportedName`) -/

/-- `strings.Fields` (split around runs of whitespace). -/
def fieldsAux : List Char → List Char → List (List Char)
  | [], acc => if acc = [] then [] else [acc.reverse]
  | c :: rest, acc =>
    if goIsSpace c then
      if acc = [] then fieldsAux rest [] else acc.reverse :: fieldsAux rest []
    else fieldsAux rest (c :: acc)

def fields (s : List Char) : List (List Char) := fieldsAux s []

/-- `strings.ReplaceAll` for a multi-byte pattern, fueled by the input length
(each step consumes at least one byte, so `s.length` fuel is exact). -/
def replaceSeqF (pat rep : List Char) : Nat → List Char → List Char
  | 0, s => s
  | _ + 1, [] => []
  | fuel + 1, c :: rest =>
    if pat.isPrefixOf (c :: rest) then
      rep ++ replaceSeqF pat rep fuel ((c :: rest).drop pat.length)
    else c :: replaceSeqF pat rep fuel rest

def replaceSeq (pat rep s : List Char) : List Char := replaceSeqF pat rep s.length s

/-- `exportedName` derives a Go exported identifier. -/
def exportedName (s : String) : String :=
  if s = "" then "" else
  let t := replaceChar '_' ' ' s.data
  let t := replaceChar '-' ' ' t
  let ws := (fields t).map (fun w => match w with | [] => [] | c :: rest => c.toUpper :: rest)
  let r := ws.flatten
  let r := replaceSeq "Id".data "ID".data r
  let r := replaceSeq "Url".data "URL".data r
  let r := replaceSeq "Http".data "HTTP".data r
  let r := replaceSeq "Api".data "API".data r
  let r := match r with | [] => ([] : List Char) | c :: rest => c.toUpper :: rest
  String.mk r

/-! ### Type mapping (`generate.go`) -/

/-- `scalarGoType` returns the Go type for a scalar Discovery Document type.
If `optional` is true and it's a boolean, returns `*bool` to distinguish
absent from false. -/
def scalarGoType (typ typeFormat : String) (optional : Bool) : String :=
  if typ = "string" then "string"
  else if typ = "integer" then
    if typeFormat = "int32" then "int32"
    else if typeFormat = "uint32" then "uint32"
    else if typeFormat = "int64" then "int64"
    else if typeFormat = "uint64" then "uint64"
    else "int64"
  else if typ = "number" then
    if typeFormat = "float" then "float32"
    else if typeFormat = "double" then "float64"
    else "float64"
  else if typ = "boolean" then
    if optional then "*bool" else "bool"
  else if typ = "any" then "any"
  else "any"

/-- `paramGoType`. -/
def paramGoType (p : Parameter) : String :=
  if p.repeated then "[]" ++ scalarGoType p.type p.format false
  else scalarGoType p.type p.format (!p.required)

/-- `indexOf` returns the index of `s` in `slice`, or `-1`. -/
def indexOf : List String → String → Int
  | [], _ => -1
  | v :: rest, s =>
    if v = s then 0
    else
      let r := indexOf rest s
      if r = -1 then -1 else r + 1

/-- The `$ref` branch of `PropertyInfo.resolveType`: use the referenced
schema's exported name, but inline simple (wrapper) types. -/
def resolveRefType (allSchemas : List (String × Schema)) (rf : String) (optional : Bool) :
    String :=
  let refType := exportedName rf
  match lookupName allSchemas rf with
  | some refSchema =>
    if refSchema.type ≠ "" ∧ refSchema.type ≠ "object" ∧ refSchema.type ≠ "array" then
      scalarGoType refSchema.type refSchema.format optional
    else "*" ++ refType
  | none => "*" ++ refType

/-- `resolveType` resolves the Go type for a schema, handling refs, arrays,
objects, etc. (`PropertyInfo.resolveType`; `p.AllSchemas` passed explicitly). -/
def resolveType (allSchemas : List (String × Schema)) (schema : Schema) (optional : Bool) :
    String :=
  match schema with
  | .mk _ ty fm _ _ items addProps rf _ _ _ _ _ =>
    if rf ≠ "" then resolveRefType allSchemas rf optional
    else if ty = "array" then
      match items with
      | some it => "[]" ++ resolveType allSchemas it false
      | none => "[]any"
    else if ty = "object" then
      match addProps with
      | some ap => "map[string]" ++ resolveType allSchemas ap false
      | none => "map[string]any"
    else scalarGoType ty fm optional

/-! ### Generation wrappers (`generate.go`) -/

/-- `GenerateOptions` configures code generation (`pfx` is Go's `Prefix`
field and `structPfx` is Go's `StructPrefix` field). -/
structure GenerateOptions where
  packageName : String
  methods : List String
  pfx : String
  structPfx : String
  generateSchema : Bool

/-- `MethodInfo` wraps a `Method` with generation helpers (`pfx`/`structPfx`
are Go's `Prefix`/`StructPrefix`). -/
structure MethodInfo where
  fullName : String
  method : Method
  pfx : String
  structPfx : String

/-- `ParamInfo` wraps a `Parameter`. -/
structure ParamInfo where
  name : String
  param : Parameter

/-- `MethodInfo.ToolName`. -/
def MethodInfo.ToolName (m : MethodInfo) : String :=
  m.pfx ++ String.mk (replaceChar '.' '_' m.fullName.data)

/-- `strings.Split` on a one-byte separator. -/
def splitCharAux (sep : Char) : List Char → List Char → List (List Char)
  | [], acc => [acc.reverse]
  | c :: rest, acc =>
    if c = sep then acc.reverse :: splitCharAux sep rest []
    else splitCharAux sep rest (c :: acc)

def splitChar (sep : Char) (s : List Char) : List (List Char) := splitCharAux sep s []

/-- `MethodInfo.StructName`. -/
def MethodInfo.StructName (m : MethodInfo) : String :=
  let parts := splitChar '.' m.fullName.data
  m.structPfx ++ (parts.map (fun p => exportedName (String.mk p))).foldl (· ++ ·) "" ++ "Args"

/-- `MethodInfo.Description`: cleaned, length-capped tool description. -/
def MethodInfo.Description (m : MethodInfo) : List Char :=
  let desc := cleanDescription m.method.description
  if 200 < desc.length then desc.take 197 ++ ['.', '.', '.'] else desc

/-- The comparison closure passed to `sort.Slice` in `MethodInfo.SortedParams`:
required params first, then by parameter order, then alphabetically. -/
def paramLess (po : List String) (a b : ParamInfo) : Bool :=
  if a.param.required ≠ b.param.required then a.param.required
  else
    let iOrder := indexOf po a.name
    let jOrder := indexOf po b.name
    if iOrder ≠ jOrder then
      if iOrder = -1 then false
      else if jOrder = -1 then true
      else decide (iOrder < jOrder)
    else strLt a.name b.name

/-- `MethodInfo.SortedParams`: the parameter entries (one per map entry, in
enumeration order) sorted by `paramLess` (`sort.Slice` is modelled as a sort
consistent with the comparator). -/
def MethodInfo.SortedParams (m : MethodInfo) : List ParamInfo :=
  let params := m.method.parameters.map (fun p => ParamInfo.mk p.1 p.2)
  List.insertionSort (fun a b => paramLess m.method.parameterOrder b a = false) params

/-- `ParamInfo.FieldName`. -/
def ParamInfo.FieldName (p : ParamInfo) : String := exportedName p.name

/-- `ParamInfo.JSONTag`. -/
def ParamInfo.JSONTag (p : ParamInfo) : String :=
  if p.param.required then p.name else p.name ++ ",omitempty"

/-- `ParamInfo.GoType`. -/
def ParamInfo.GoType (p : ParamInfo) : String := paramGoType p.param

/-- `SchemaInfo` wraps a `Schema` with generation helpers; `requiredSet`
models Go's `map[string]bool` set of required property names. -/
structure SchemaInfo where
  name : String
  schema : Schema
  allSchemas : List (String × Schema)
  requiredSet : List String

/-- `NewSchemaInfo`. -/
def NewSchemaInfo (name : String) (schema : Schema) (allSchemas : List (String × Schema)) :
    SchemaInfo :=
  { name := name
    schema := schema
    allSchemas := allSchemas
    requiredSet :=
      match schema.annotations with
      | some a => a.required
      | none => [] }

/-- `SchemaInfo.StructName`. -/
def SchemaInfo.StructName (s : SchemaInfo) : String := exportedName s.name

/-- `SchemaInfo.Description`. -/
def SchemaInfo.Description (s : SchemaInfo) : List Char :=
  cleanDescription s.schema.description

/-- `PropertyInfo` wraps a schema property. -/
structure PropertyInfo where
  name : String
  property : Schema
  required : Bool
  allSchemas : List (String × Schema)

/-- The comparison closure passed to `sort.Slice` in
`SchemaInfo.SortedProperties`: required first, then alphabetically. -/
def propLess (a b : PropertyInfo) : Bool :=
  if a.required ≠ b.required then a.required
  else strLt a.name b.name

/-- `SchemaInfo.SortedProperties`. -/
def SchemaInfo.SortedProperties (s : SchemaInfo) : List PropertyInfo :=
  let props := s.schema.properties.map (fun p =>
    PropertyInfo.mk p.1 p.2 (s.requiredSet.contains p.1 || p.2.required) s.allSchemas)
  List.insertionSort (fun a b => propLess b a = false) props

/-- `PropertyInfo.FieldName`. -/
def PropertyInfo.FieldName (p : PropertyInfo) : String := exportedName p.name

/-- `PropertyInfo.JSONTag`. -/
def PropertyInfo.JSONTag (p : PropertyInfo) : String :=
  if p.required then p.name else p.name ++ ",omitempty"

/-- `PropertyInfo.GoType`. -/
def PropertyInfo.GoType (p : PropertyInfo) : String :=
  resolveType p.allSchemas p.property (!p.required)

/-! ### Schema dependency collection (`generate.go`)

Go's `collectSchemaRefs`/`collectSchemaRefsFromSchema` recurse through the
possibly-cyclic named-schema graph, guarded by the `needed` visited set.  We
model the visited set as a list (cons = Go's `needed[name] = true`) and the
recursion with an explicit fuel that bounds the depth of nested
`collectSchemaRefs` frames; `collectSchemaRefs_fuel_stable` below proves that
`allSchemas.length + 1` fuel is always sufficient, which is exactly the
termination argument for the Go recursion. -/

mutual
/-- `collectSchemaRefsFromSchema` with the graph recursion abstracted as
`visit` (Go: `visit = collectSchemaRefs` at the current call depth): collects
the node's own `$ref`, then its properties, items and additionalProperties. -/
def collectFromSchema (visit : String → List String → List String) :
    Schema → List String → List String
  | .mk _ _ _ _ props items addProps rf _ _ _ _ _, needed =>
    let needed1 := if rf ≠ "" then visit rf needed else needed
    let needed2 := collectFromProps visit props needed1
    let needed3 := match items with
      | some it => collectFromSchema visit it needed2
      | none => needed2
    match addProps with
    | some ap => collectFromSchema visit ap needed3
    | none => needed3

/-- The `for _, prop := range schema.Properties` loops. -/
def collectFromProps (visit : String → List String → List String) :
    List (String × Schema) → List String → List String
  | [], needed => needed
  | (_, prop) :: rest, needed => collectFromProps visit rest (collectFromSchema visit prop needed)
end

/-- The shared body of the Go collectors: collect from a property map, an
optional items schema and an optional additionalProperties schema, in that
order. -/
def collectFromParts (visit : String → List String → List String)
    (props : List (String × Schema)) (items addProps : Option Schema)
    (needed : List String) : List String :=
  let needed2 := collectFromProps visit props needed
  let needed3 := match items with
    | some it => collectFromSchema visit it needed2
    | none => needed2
  match addProps with
  | some ap => collectFromSchema visit ap needed3
  | none => needed3

/-- `collectSchemaRefs` (fueled): if the name was already collected or is
absent from the mapping, return unchanged; otherwise mark it needed and
collect from the schema's properties, items and additionalProperties
(but not from its own `$ref`, exactly as in the Go code). -/
def collectSchemaRefsF (allSchemas : List (String × Schema)) :
    Nat → String → List String → List String
  | 0, _, needed => needed
  | fuel + 1, schemaName, needed =>
    if schemaName ∈ needed then needed
    else
      match lookupName allSchemas schemaName with
      | none => needed
      | some schema =>
        collectFromParts (fun n nd => collectSchemaRefsF allSchemas fuel n nd)
          schema.properties schema.items schema.additionalProperties
          (schemaName :: needed)

/-- `collectSchemaRefs`: the fuel `allSchemas.length + 1` is proved
sufficient below. -/
def collectSchemaRefs (schemaName : String) (allSchemas : List (String × Schema))
    (needed : List String) : List String :=
  collectSchemaRefsF allSchemas (allSchemas.length + 1) schemaName needed

/-- `collectSchemaRefsFromSchema` at full fuel. -/
def collectSchemaRefsFromSchema (schema : Schema) (allSchemas : List (String × Schema))
    (needed : List String) : List String :=
  collectFromSchema (fun n nd => collectSchemaRefs n allSchemas nd) schema needed

/-- One guarded block of the `collectSchemas` entry loop: collect from a
method's (optional, possibly empty) request or response reference. -/
def collectFromRef (allSchemas : List (String × Schema)) (oref : Option SchemaRef)
    (needed : List String) : List String :=
  match oref with
  | some r => if r.ref ≠ "" then collectSchemaRefs r.ref allSchemas needed else needed
  | none => needed

/-- The entry loop of `collectSchemas`: for each method, collect from its
request and response references. -/
def collectNeeded (allSchemas : List (String × Schema)) :
    List MethodInfo → List String → List String
  | [], needed => needed
  | m :: rest, needed =>
    collectNeeded allSchemas rest
      (collectFromRef allSchemas m.method.response
        (collectFromRef allSchemas m.method.request needed))

/-- `collectSchemas`: collect all schemas needed by the given methods
(including transitive dependencies), then emit them sorted by name. -/
def collectSchemas (methods : List MethodInfo) (allSchemas : List (String × Schema)) :
    List SchemaInfo :=
  let needed := collectNeeded allSchemas methods []
  let names := sortStrings needed
  names.filterMap (fun name =>
    (lookupName allSchemas name).map (fun schema => NewSchemaInfo name schema allSchemas))

/-- The (zero or one) non-empty reference name of an optional `SchemaRef`. -/
def refNames (oref : Option SchemaRef) : List String :=
  match oref with
  | some r => if r.ref ≠ "" then [r.ref] else []
  | none => []

/-- The entry-point reference names of the selected methods: each method's
non-empty request and response `$ref`s, in loop order. -/
def entryRefs (methods : List MethodInfo) : List String :=
  methods.flatMap (fun m => refNames m.method.request ++ refNames m.method.response)

/-! ### Semantic notions for the dependency collector: size, keys,
reference edges, reachability -/

mutual
/-- Structural size of a schema (for induction). -/
def schemaSize : Schema → Nat
  | .mk _ _ _ _ props items addProps _ _ _ _ _ _ =>
    1 + propsSize props +
      (match items with | some it => schemaSize it | none => 0) +
      (match addProps with | some ap => schemaSize ap | none => 0)

def propsSize : List (String × Schema) → Nat
  | [] => 0
  | (_, s) :: rest => 1 + schemaSize s + propsSize rest
end

/-- The distinct schema names of the mapping. -/
def schemaKeys (allSchemas : List (String × Schema)) : List String :=
  (allSchemas.map Prod.fst).dedup

/-- The number of schema names not yet in the visited set — the decreasing
measure of the Go recursion. -/
def unvisited (allSchemas : List (String × Schema)) (needed : List String) : Nat :=
  ((schemaKeys allSchemas).filter (fun k => decide (k ∉ needed))).length

mutual
/-- All `$ref` names occurring in a schema node (own ref, properties, items,
additionalProperties) — exactly the names `collectSchemaRefsFromSchema`
visits. -/
def nodeRefs : Schema → List String
  | .mk _ _ _ _ props items addProps rf _ _ _ _ _ =>
    (if rf ≠ "" then [rf] else []) ++ propsRefs props ++
      (match items with | some it => nodeRefs it | none => []) ++
      (match addProps with | some ap => nodeRefs ap | none => [])

def propsRefs : List (String × Schema) → List String
  | [] => []
  | (_, s) :: rest => nodeRefs s ++ propsRefs rest
end

/-- The `$ref` names a *named* schema links to — `collectSchemaRefs` scans
the body's properties, items and additionalProperties but not the named
schema's own `$ref` field. -/
def topRefs : Schema → List String
  | .mk _ _ _ _ props items addProps _ _ _ _ _ _ =>
    propsRefs props ++
      (match items with | some it => nodeRefs it | none => []) ++
      (match addProps with | some ap => nodeRefs ap | none => [])

/-- Reachability between schema names: from `a`, follow the refs of the
schema a name resolves to. -/
inductive Reaches (allSchemas : List (String × Schema)) : String → String → Prop where
  | refl (a : String) : Reaches allSchemas a a
  | step {a c : String} (s : Schema) (b : String) :
      lookupName allSchemas a = some s → b ∈ topRefs s →
      Reaches allSchemas b c → Reaches allSchemas a c

/-- Invariant of one collector call on the visited set: the result extends
the input, adds only unvisited names present in the mapping, and preserves
freedom from duplicates. -/
def AddsOK (allSchemas : List (String × Schema)) (needed res : List String) : Prop :=
  ∃ new, res = new ++ needed ∧
    (∀ x ∈ new, x ∈ schemaKeys allSchemas ∧ x ∉ needed) ∧
    (needed.Nodup → res.Nodup)

/-- Closure of a collector call's result relative to its input: every name
it adds has been fully processed — each resolvable outgoing reference of an
added name is itself in the result. -/
def ClosedExt (allSchemas : List (String × Schema)) (needed res : List String) : Prop :=
  ∀ y s b, y ∈ res → y ∉ needed → lookupName allSchemas y = some s → b ∈ topRefs s →
    (lookupName allSchemas b).isSome = true → b ∈ res

/-! ### Generation pipeline (`GenerateMCPTools`)

`text/template` execution and `go/format.Source` are external library
collaborators; they are passed in as function parameters (`render`,
`fmtSource`), each returning either a text or an error message.  The result
models Go's `(string, error)` pair. -/

/-- `TemplateData` is passed to the code generation template. -/
structure TemplateData where
  packageName : String
  apiName : String
  apiTitle : String
  apiVersion : String
  methods : List MethodInfo
  schemas : List (String × Schema)
  schemasToGen : List SchemaInfo
  allSchemas : List (String × Schema)
  generateSchema : Bool

/-- The `for _, name := range methodNames` loop of `GenerateMCPTools`:
fails with `method not found` at the first name absent from the flattened
method map. -/
def buildMethodInfos (allMethods : List (String × Method)) (pfx structPfx : String) :
    List String → Except String (List MethodInfo)
  | [] => .ok []
  | name :: rest =>
    match lookupName allMethods name with
    | none => .error ("method not found: " ++ name)
    | some m =>
      (buildMethodInfos allMethods pfx structPfx rest).map
        (fun tail => MethodInfo.mk name m pfx structPfx :: tail)

/-- The package-name default applied at the head of `GenerateMCPTools`. -/
def effectivePackageName (opts : GenerateOptions) : String :=
  if opts.packageName = "" then "tools" else opts.packageName

/-- The tool-prefix default (`doc.Name + "_"`). -/
def effectivePfx (doc : Document) (opts : GenerateOptions) : String :=
  if opts.pfx = "" then doc.name ++ "_" else opts.pfx

/-- The struct-prefix default (`"API"`). -/
def effectiveStructPfx (opts : GenerateOptions) : String :=
  if opts.structPfx = "" then "API" else opts.structPfx

/-- The method filter: an empty explicit list means all methods, sorted. -/
def effectiveMethodNames (doc : Document) (opts : GenerateOptions) : List String :=
  if opts.methods.isEmpty then doc.SortedMethodNames else opts.methods

/-- The `TemplateData` value assembled by `GenerateMCPTools`. -/
def mkTemplateData (doc : Document) (opts : GenerateOptions)
    (methodsToGenerate : List MethodInfo) : TemplateData :=
  { packageName := effectivePackageName opts
    apiName := doc.name
    apiTitle := doc.title
    apiVersion := doc.version
    methods := methodsToGenerate
    schemas := doc.schemas
    schemasToGen :=
      if opts.generateSchema then collectSchemas methodsToGenerate doc.schemas else []
    allSchemas := doc.schemas
    generateSchema := opts.generateSchema }

/-- `GenerateMCPTools` generates Go code for MCP tools from a Discovery
Document.  Returns Go's `(string, error)` as `String × Option String`. -/
def GenerateMCPTools (doc : Document) (opts : GenerateOptions)
    (render : TemplateData → Except String String)
    (fmtSource : String → Except String String) : String × Option String :=
  match buildMethodInfos doc.AllMethods (effectivePfx doc opts) (effectiveStructPfx opts)
      (effectiveMethodNames doc opts) with
  | .error e => ("", some e)
  | .ok methodsToGenerate =>
    match render (mkTemplateData doc opts methodsToGenerate) with
    | .error e => ("", some ("template execution failed: " ++ e))
    | .ok rendered =>
      match fmtSource rendered with
      | .error e => (rendered, some ("generated code has syntax errors: " ++ e))
      | .ok formatted => (formatted, none)

/-! ### Concrete fixtures used by witnesses and counterexamples -/

/-- A scalar parameter fixture. -/
def mkParam (ty : String) (req : Bool) : Parameter :=
  ⟨ty, [], req, "", false, "", [], "", ""⟩

/-- A schema node carrying only a `$ref`. -/
def refOnly (r : String) : Schema :=
  .mk "" "" "" [] [] none none r "" [] false false none

/-- A named scalar schema fixture. -/
def scalarSchema (ty : String) : Schema :=
  .mk "" ty "" [] [] none none "" "" [] false false none

/-- An object schema fixture with the given properties. -/
def objSchema (props : List (String × Schema)) : Schema :=
  .mk "" "object" "" [] props none none "" "" [] false false none

/-- A method fixture with the given parameters, order and references. -/
def mkMethod (params : List (String × Parameter)) (po : List String)
    (req res : Option SchemaRef) : Method :=
  ⟨"", "", "", [], params, po, req, res, []⟩

/-- A named scalar schema fixture with `required := true`. -/
def scalarSchemaReq (ty : String) : Schema :=
  .mk "" ty "" [] [] none none "" "" [] true false none

/-- Two non-required parameters both listed in `parameterOrder`, in
anti-alphabetical order: exercises the order tie-break on non-required
entries. -/
def ceOrderMethod : MethodInfo :=
  ⟨"m", mkMethod [("x", mkParam "string" false), ("y", mkParam "string" false)] ["y", "x"]
    none none, "", "API"⟩

/-- The spec's `{zebra, alpha, required, beta}` property example, with only
`required` marked required (per-property flag). -/
def examplePropsInfo : SchemaInfo :=
  NewSchemaInfo "S"
    (objSchema [("zebra", scalarSchema "string"), ("alpha", scalarSchema "string"),
      ("required", scalarSchemaReq "string"), ("beta", scalarSchema "string")]) []

/-- A two-element schema mapping whose reference graph is the cycle
A → B → A (each schema's sole property references the other). -/
def cycleSchemas : List (String × Schema) :=
  [("A", objSchema [("b", refOnly "B")]), ("B", objSchema [("a", refOnly "A")])]

/-- A one-entry schema mapping, used to exercise dangling references. -/
def oneSchemaMap : List (String × Schema) :=
  [("B", scalarSchema "string")]

/-! ### Sort-order keys for the `sort.Slice` comparators -/

/-- Requiredness rank: required entries sort first. -/
def paramRank (b : Bool) : Nat := if b then 0 else 1

/-- Position of a name in the declared canonical parameter order, with names
absent from the order sorting after all present ones. -/
def paramPos (po : List String) (n : String) : Nat :=
  if indexOf po n = -1 then po.length else (indexOf po n).toNat

/-- Lexicographic strict order on (rank, position, name) sort keys. -/
def tripLt (x y : Nat × Nat × List Char) : Prop :=
  x.1 < y.1 ∨ (x.1 = y.1 ∧ (x.2.1 < y.2.1 ∨ (x.2.1 = y.2.1 ∧ strLtB x.2.2 y.2.2 = true)))

/-- The sort key realized by `paramLess`. -/
def paramKey (po : List String) (a : ParamInfo) : Nat × Nat × List Char :=
  (paramRank a.param.required, paramPos po a.name, a.name.data)

/-- The sort key realized by `propLess`. -/
def propKey (a : PropertyInfo) : Nat × Nat × List Char :=
  (paramRank a.required, 0, a.name.data)

/-! ### Order facts about the byte-lexicographic string comparison -/

theorem char_eq_of_not_lt {a b : Char} (h1 : charLtB a b = false) (h2 : charLtB b a = false) :
    a = b := by
  simp only [charLtB, decide_eq_false_iff_not, Nat.not_lt] at h1 h2
  exact Char.ext (UInt32.toNat.inj (Nat.le_antisymm h2 h1))

theorem charLtB_trans {a b c : Char} (h1 : charLtB a b = true) (h2 : charLtB b c = true) :
    charLtB a c = true := by
  simp only [charLtB, decide_eq_true_eq] at *
  omega

theorem charLtB_irrefl (a : Char) : charLtB a a = false := by
  simp [charLtB]

theorem charLtB_asymm {a b : Char} (h : charLtB a b = true) : charLtB b a = false := by
  simp only [charLtB, decide_eq_true_eq, decide_eq_false_iff_not, Nat.not_lt] at *
  omega

theorem strLtB_eq_of_not {a b : List Char} (h1 : strLtB a b = false) (h2 : strLtB b a = false) :
    a = b := by
  induction a generalizing b with
  | nil => cases b with
    | nil => rfl
    | cons y ys => simp [strLtB] at h1
  | cons x xs ih =>
    cases b with
    | nil => simp [strLtB] at h2
    | cons y ys =>
      simp only [strLtB, Bool.or_eq_false_iff, Bool.and_eq_false_iff] at h1 h2
      have hxy := char_eq_of_not_lt h1.1 h2.1
      subst hxy
      rcases h1.2 with h1' | h1'
      · simp at h1'
      rcases h2.2 with h2' | h2'
      · simp at h2'
      rw [ih h1' h2']

theorem strLtB_irrefl (a : List Char) : strLtB a a = false := by
  induction a with
  | nil => rfl
  | cons x xs ih => simp [strLtB, charLtB_irrefl, ih]

theorem strLtB_asymm {a b : List Char} (h : strLtB a b = true) : strLtB b a = false := by
  induction a generalizing b with
  | nil =>
    cases b with
    | nil => simpa [strLtB] using h
    | cons y ys => simp [strLtB]
  | cons x xs ih =>
    cases b with
    | nil => simp [strLtB] at h
    | cons y ys =>
      simp only [strLtB, Bool.or_eq_true, Bool.and_eq_true, decide_eq_true_eq] at h
      simp only [strLtB, Bool.or_eq_false_iff, Bool.and_eq_false_iff]
      rcases h with h | ⟨hxy, h⟩
      · refine ⟨charLtB_asymm h, .inl ?_⟩
        simp only [decide_eq_false_iff_not]
        intro he
        subst he
        simp [charLtB_irrefl] at h
      · subst hxy
        exact ⟨charLtB_irrefl x, .inr (ih h)⟩

theorem strLtB_trans {a b c : List Char} (h1 : strLtB a b = true) (h2 : strLtB b c = true) :
    strLtB a c = true := by
  induction a generalizing b c with
  | nil =>
    cases b with
    | nil => simp [strLtB] at h1
    | cons y ys =>
      cases c with
      | nil => simp [strLtB] at h2
      | cons z zs => simp [strLtB]
  | cons x xs ih =>
    cases b with
    | nil => simp [strLtB] at h1
    | cons y ys =>
      cases c with
      | nil => simp [strLtB] at h2
      | cons z zs =>
        simp only [strLtB, Bool.or_eq_true, Bool.and_eq_true, decide_eq_true_eq] at *
        rcases h1 with h1 | ⟨hxy, h1⟩ <;> rcases h2 with h2 | ⟨hyz, h2⟩
        · exact .inl (charLtB_trans h1 h2)
        · subst hyz; exact .inl h1
        · subst hxy; exact .inl h2
        · subst hxy; subst hyz; exact .inr ⟨rfl, ih h1 h2⟩

theorem strLeB_iff_not_lt {a b : List Char} : strLeB a b = true ↔ strLtB b a = false := by
  induction a generalizing b with
  | nil => cases b <;> simp [strLeB, strLtB]
  | cons x xs ih =>
    cases b with
    | nil => simp [strLeB, strLtB]
    | cons y ys =>
      simp only [strLeB, strLtB, Bool.or_eq_true, Bool.and_eq_true, decide_eq_true_eq,
        Bool.or_eq_false_iff, Bool.and_eq_false_iff]
      constructor
      · rintro (h | ⟨hxy, h⟩)
        · refine ⟨charLtB_asymm h, .inl ?_⟩
          simp only [decide_eq_false_iff_not]
          intro he
          subst he
          simp [charLtB_irrefl] at h
        · subst hxy
          exact ⟨charLtB_irrefl x, .inr (ih.mp h)⟩
      · rintro ⟨hyx, h | h⟩
        · simp only [decide_eq_false_iff_not] at h
          rcases Nat.lt_trichotomy x.toNat y.toNat with hlt | heq | hgt
          · exact .inl (by simp only [charLtB, decide_eq_true_eq]; exact hlt)
          · exact absurd (Char.ext (UInt32.toNat.inj heq)).symm h
          · exfalso
            simp only [charLtB, decide_eq_false_iff_not, Nat.not_lt] at hyx
            omega
        · rcases Nat.lt_trichotomy x.toNat y.toNat with hlt | heq | hgt
          · exact .inl (by simp only [charLtB, decide_eq_true_eq]; exact hlt)
          · have := Char.ext (UInt32.toNat.inj heq)
            subst this
            exact .inr ⟨rfl, ih.mpr h⟩
          · exfalso
            simp only [charLtB, decide_eq_false_iff_not, Nat.not_lt] at hyx
            omega

theorem string_ext {a b : String} (h : a.data = b.data) : a = b := by
  cases a
  cases b
  exact congrArg String.mk h

theorem strLe_total (a b : String) : strLe a b = true ∨ strLe b a = true := by
  simp only [strLe, strLeB_iff_not_lt]
  rcases hab : strLtB b.data a.data with _ | _
  · exact .inl rfl
  · exact .inr (by simp [strLtB_asymm hab])

theorem strLe_trans {a b c : String} (h1 : strLe a b = true) (h2 : strLe b c = true) :
    strLe a c = true := by
  simp only [strLe, strLeB_iff_not_lt] at *
  cases hca : strLtB c.data a.data with
  | false => rfl
  | true =>
    exfalso
    cases hab : strLtB a.data b.data with
    | false =>
      have hab' := strLtB_eq_of_not hab h1
      rw [hab'] at hca
      simp [hca] at h2
    | true =>
      have := strLtB_trans hca hab
      simp [this] at h2

theorem strLe_antisymm {a b : String} (h1 : strLe a b = true) (h2 : strLe b a = true) :
    a = b := by
  simp only [strLe, strLeB_iff_not_lt] at *
  exact string_ext (strLtB_eq_of_not h2 h1)

/-! ### C1: boolean requiredness determines plain vs nullable boolean -/

/-- C1.  For boolean schema properties and method parameters the resolved Go
type depends on requiredness: required booleans map to `bool`, non-required
booleans to `*bool` (requiredness of a property being its per-property flag
or membership in the schema annotations' required list, as recorded by
`SchemaInfo.requiredSet`); every non-boolean scalar type resolves identically
regardless of requiredness. -/
theorem boolean_requiredness_resolution :
    (∀ fm : String, scalarGoType "boolean" fm false = "bool" ∧
        scalarGoType "boolean" fm true = "*bool") ∧
    (∀ typ fm : String, typ ≠ "boolean" →
        scalarGoType typ fm true = scalarGoType typ fm false) ∧
    (∀ p : Parameter, p.repeated = false → p.type = "boolean" →
        paramGoType p = if p.required then "bool" else "*bool") ∧
    (∀ si : SchemaInfo, ∀ pi ∈ si.SortedProperties,
        pi.required = (si.requiredSet.contains pi.name || pi.property.required) ∧
        (pi.property.ref = "" → pi.property.type = "boolean" →
          pi.GoType = if pi.required then "bool" else "*bool")) := by
  refine ⟨fun fm => ⟨rfl, rfl⟩, ?_, ?_, ?_⟩
  · intro typ fm hne
    simp only [scalarGoType]
    split_ifs <;> simp_all
  · intro p hrep hty
    cases hreq : p.required <;> simp [paramGoType, hrep, hty, hreq, scalarGoType]
  · intro si pi hpi
    rw [SchemaInfo.SortedProperties, List.mem_insertionSort, List.mem_map] at hpi
    obtain ⟨⟨n, prop⟩, hmem, hpi⟩ := hpi
    subst hpi
    refine ⟨rfl, fun href hty => ?_⟩
    show resolveType si.allSchemas prop (!(si.requiredSet.contains n || prop.required)) = _
    cases prop with
    | mk i t f d ps it ap rf df en rq ro an =>
      simp only [Schema.ref] at href
      simp only [Schema.type] at hty
      subst href
      subst hty
      simp only [Schema.required]
      have key : ∀ b : Bool,
          resolveType si.allSchemas (Schema.mk i "boolean" f d ps it ap "" df en rq ro an) (!b) =
            if b then "bool" else "*bool" := by
        intro b
        cases b <;> rw [resolveType.eq_def] <;> simp [scalarGoType]
      exact key _

/-- C1 witness: a concrete optional boolean parameter resolves to `*bool`, a
required one to `bool`, and a non-boolean scalar ignores requiredness. -/
theorem boolean_requiredness_resolution_witness :
    paramGoType (mkParam "boolean" false) = "*bool" ∧
    paramGoType (mkParam "boolean" true) = "bool" ∧
    scalarGoType "string" "" true = scalarGoType "string" "" false := by
  refine ⟨?_, ?_, boolean_requiredness_resolution.2.1 "string" "" (by decide)⟩
  · have h := boolean_requiredness_resolution.2.2.1 (mkParam "boolean" false) rfl rfl
    exact h.trans (by decide)
  · have h := boolean_requiredness_resolution.2.2.1 (mkParam "boolean" true) rfl rfl
    exact h.trans (by decide)

/-! ### C6: references to scalar wrapper schemas inline the scalar type -/

/-- C6.  A property whose schema is a `$ref` resolving to a named schema with
a scalar declared type (neither empty, nor `object`, nor `array`) resolves to
the corresponding scalar Go type — for a `string` wrapper, exactly `"string"`
— and never to the pointer-to-named-struct form; a `$ref` resolving to an
`object` schema resolves to `"*" ++ exportedName ref`. -/
theorem ref_wrapper_schema_resolution (allSchemas : List (String × Schema)) (schema : Schema)
    (optional : Bool) (refSchema : Schema)
    (href : schema.ref ≠ "")
    (hlook : lookupName allSchemas schema.ref = some refSchema) :
    (refSchema.type ≠ "" → refSchema.type ≠ "object" → refSchema.type ≠ "array" →
      resolveType allSchemas schema optional =
        scalarGoType refSchema.type refSchema.format optional ∧
      (refSchema.type = "string" → resolveType allSchemas schema optional = "string")) ∧
    (refSchema.type = "object" →
      resolveType allSchemas schema optional = "*" ++ exportedName schema.ref) := by
  cases schema with
  | mk i t f d ps it ap rf df en rq ro an =>
    simp only [Schema.ref] at href hlook
    constructor
    · intro h1 h2 h3
      have hmain : resolveType allSchemas (.mk i t f d ps it ap rf df en rq ro an) optional =
          scalarGoType refSchema.type refSchema.format optional := by
        rw [resolveType.eq_def]
        simp [href, resolveRefType, hlook, h1, h2, h3]
      refine ⟨hmain, fun hstr => ?_⟩
      rw [hmain, hstr]
      rfl
    · intro hobj
      rw [resolveType.eq_def]
      simp [href, resolveRefType, hlook, hobj, Schema.ref]

/-- C6 witness: a reference to a `string` wrapper schema resolves to
`string`; a reference to an `object` schema resolves to a pointer type. -/
theorem ref_wrapper_schema_resolution_witness :
    resolveType [("Wrapper", scalarSchema "string")] (refOnly "Wrapper") true = "string" ∧
    resolveType [("Obj", objSchema [])] (refOnly "Obj") true = "*Obj" := by
  constructor
  · exact ((ref_wrapper_schema_resolution [("Wrapper", scalarSchema "string")]
      (refOnly "Wrapper") true (scalarSchema "string")
      (by decide) rfl).1 (by decide) (by decide) (by decide)).2 rfl
  · have h := (ref_wrapper_schema_resolution [("Obj", objSchema [])]
      (refOnly "Obj") true (objSchema []) (by decide) rfl).2 rfl
    rw [h]
    decide

/-! ### Sort-key order facts -/

theorem tripLt_trans {x y z : Nat × Nat × List Char} (h1 : tripLt x y) (h2 : tripLt y z) :
    tripLt x z := by
  unfold tripLt at *
  rcases h1 with h1 | ⟨e1, h1⟩ <;> rcases h2 with h2 | ⟨e2, h2⟩
  · exact .inl (h1.trans h2)
  · exact .inl (e2 ▸ h1)
  · exact .inl (e1 ▸ h2)
  · refine .inr ⟨e1.trans e2, ?_⟩
    rcases h1 with h1 | ⟨f1, h1⟩ <;> rcases h2 with h2 | ⟨f2, h2⟩
    · exact .inl (h1.trans h2)
    · exact .inl (f2 ▸ h1)
    · exact .inl (f1 ▸ h2)
    · exact .inr ⟨f1.trans f2, strLtB_trans h1 h2⟩

theorem tripLt_irrefl (x : Nat × Nat × List Char) : ¬ tripLt x x := by
  unfold tripLt
  simp [strLtB_irrefl]

theorem tripLt_cases (x y : Nat × Nat × List Char) : tripLt x y ∨ tripLt y x ∨ x = y := by
  obtain ⟨a1, a2, a3⟩ := x
  obtain ⟨b1, b2, b3⟩ := y
  unfold tripLt
  rcases Nat.lt_trichotomy a1 b1 with h | h | h
  · exact .inl (.inl h)
  · rcases Nat.lt_trichotomy a2 b2 with h2 | h2 | h2
    · exact .inl (.inr ⟨h, .inl h2⟩)
    · cases hab : strLtB a3 b3 with
      | true => exact .inl (.inr ⟨h, .inr ⟨h2, rfl⟩⟩)
      | false =>
        cases hba : strLtB b3 a3 with
        | true => exact .inr (.inl (.inr ⟨h.symm, .inr ⟨h2.symm, rfl⟩⟩))
        | false =>
          refine .inr (.inr ?_)
          rw [h, h2, strLtB_eq_of_not hab hba]
    · exact .inr (.inl (.inr ⟨h.symm, .inl h2⟩))
  · exact .inr (.inl (.inl h))

theorem tripLt_negtrans {a b c : Nat × Nat × List Char}
    (h1 : ¬ tripLt b a) (h2 : ¬ tripLt c b) (h : tripLt c a) : False := by
  rcases tripLt_cases a b with hab | hab | hab
  · exact h2 (tripLt_trans h hab)
  · exact h1 hab
  · exact h2 (hab ▸ h)

theorem indexOf_cases (po : List String) (n : String) :
    indexOf po n = -1 ∨ (0 ≤ indexOf po n ∧ indexOf po n < (po.length : Int)) := by
  induction po with
  | nil => exact .inl rfl
  | cons v rest ih =>
    by_cases hv : v = n
    · right
      simp [indexOf, hv]
    · rcases ih with h | ⟨h0, h1⟩
      · left
        simp [indexOf, hv, h]
      · right
        have hne : indexOf rest n ≠ -1 := by omega
        simp only [indexOf, hv, if_false, if_neg hne, List.length_cons]
        constructor <;> [omega; (push_cast; omega)]

theorem paramLess_iff (po : List String) (a b : ParamInfo) :
    paramLess po a b = true ↔ tripLt (paramKey po a) (paramKey po b) := by
  unfold paramLess paramKey paramRank paramPos tripLt
  cases har : a.param.required <;> cases hbr : b.param.required
  · simp only [ne_eq, not_true_eq_false, if_false, reduceIte]
    rcases indexOf_cases po a.name with ha | ⟨ha0, ha1⟩ <;>
      rcases indexOf_cases po b.name with hb | ⟨hb0, hb1⟩
    · simp [ha, hb, strLt, strLtB_irrefl]
    · have hne : indexOf po a.name ≠ indexOf po b.name := by omega
      have hbm : ¬ indexOf po b.name = -1 := by omega
      simp [hne, ha, hbm]
      omega
    · have hne : indexOf po a.name ≠ indexOf po b.name := by omega
      have ham : ¬ indexOf po a.name = -1 := by omega
      simp [hne, ham, hb]
      omega
    · by_cases hij : indexOf po a.name = indexOf po b.name
      · simp [hij, strLt, strLtB_irrefl]
      · have ham : ¬ indexOf po a.name = -1 := by omega
        have hbm : ¬ indexOf po b.name = -1 := by omega
        simp [hij, ham, hbm]
        omega
  · simp [tripLt]
  · simp [tripLt]
  · simp only [ne_eq, not_true_eq_false, if_false, reduceIte]
    rcases indexOf_cases po a.name with ha | ⟨ha0, ha1⟩ <;>
      rcases indexOf_cases po b.name with hb | ⟨hb0, hb1⟩
    · simp [ha, hb, strLt, strLtB_irrefl]
    · have hne : indexOf po a.name ≠ indexOf po b.name := by omega
      have hbm : ¬ indexOf po b.name = -1 := by omega
      simp [hne, ha, hbm]
      omega
    · have hne : indexOf po a.name ≠ indexOf po b.name := by omega
      have ham : ¬ indexOf po a.name = -1 := by omega
      simp [hne, ham, hb]
      omega
    · by_cases hij : indexOf po a.name = indexOf po b.name
      · simp [hij, strLt, strLtB_irrefl]
      · have ham : ¬ indexOf po a.name = -1 := by omega
        have hbm : ¬ indexOf po b.name = -1 := by omega
        simp [hij, ham, hbm]
        omega

theorem propLess_iff (a b : PropertyInfo) :
    propLess a b = true ↔ tripLt (propKey a) (propKey b) := by
  unfold propLess propKey paramRank tripLt
  cases har : a.required <;> cases hbr : b.required <;>
    simp [strLt, strLtB_irrefl]

theorem not_tripLt_of_paramLess_false {po : List String} {a b : ParamInfo}
    (h : paramLess po b a = false) : ¬ tripLt (paramKey po b) (paramKey po a) :=
  fun ht => absurd ((paramLess_iff po b a).mpr ht) (by simp [h])

theorem sortedParams_sorted (m : MethodInfo) :
    List.Sorted (fun a b => paramLess m.method.parameterOrder b a = false) m.SortedParams := by
  haveI ht : IsTrans ParamInfo (fun a b => paramLess m.method.parameterOrder b a = false) := by
    refine ⟨fun a b c hab hbc => ?_⟩
    cases hca : paramLess m.method.parameterOrder c a with
    | false => rfl
    | true =>
      exact absurd ((paramLess_iff _ c a).mp hca)
        (fun h => tripLt_negtrans (not_tripLt_of_paramLess_false hab)
          (not_tripLt_of_paramLess_false hbc) h)
  haveI hto : IsTotal ParamInfo (fun a b => paramLess m.method.parameterOrder b a = false) := by
    refine ⟨fun a b => ?_⟩
    cases hba : paramLess m.method.parameterOrder b a with
    | false => exact .inl rfl
    | true =>
      cases hab : paramLess m.method.parameterOrder a b with
      | false => exact .inr rfl
      | true =>
        exact absurd (tripLt_trans ((paramLess_iff _ a b).mp hab) ((paramLess_iff _ b a).mp hba))
          (tripLt_irrefl _)
  exact List.sorted_insertionSort _ _

theorem not_tripLt_of_propLess_false {a b : PropertyInfo}
    (h : propLess b a = false) : ¬ tripLt (propKey b) (propKey a) :=
  fun ht => absurd ((propLess_iff b a).mpr ht) (by simp [h])

theorem sortedProperties_sorted (si : SchemaInfo) :
    List.Sorted (fun a b => propLess b a = false) si.SortedProperties := by
  haveI ht : IsTrans PropertyInfo (fun a b => propLess b a = false) := by
    refine ⟨fun a b c hab hbc => ?_⟩
    cases hca : propLess c a with
    | false => rfl
    | true =>
      exact absurd ((propLess_iff c a).mp hca)
        (fun h => tripLt_negtrans (not_tripLt_of_propLess_false hab)
          (not_tripLt_of_propLess_false hbc) h)
  haveI hto : IsTotal PropertyInfo (fun a b => propLess b a = false) := by
    refine ⟨fun a b => ?_⟩
    cases hba : propLess b a with
    | false => exact .inl rfl
    | true =>
      cases hab : propLess a b with
      | false => exact .inr rfl
      | true =>
        exact absurd (tripLt_trans ((propLess_iff a b).mp hab) ((propLess_iff b a).mp hba))
          (tripLt_irrefl _)
  exact List.sorted_insertionSort _ _

/-! ### C7: emitted parameter/property ordering (corrected) -/

/-- C7 counterexample.  The claim states that all non-required entries break
ties by name in lexicographic order, but the code applies the
parameter-order tie-break to entries of equal requiredness whether or not
they are required: for two non-required parameters `x`, `y` with declared
order `["y", "x"]`, the emitted order is `y, x`, not alphabetical. -/
theorem sorted_params_claim_counterexample :
    (ceOrderMethod.SortedParams.map (fun p => p.name)) = ["y", "x"] ∧
    ¬ List.Pairwise (fun a b : ParamInfo =>
        (a.param.required = true ∧ b.param.required = false) ∨
        (a.param.required = true ∧ b.param.required = true ∧
          (paramPos ["y", "x"] a.name < paramPos ["y", "x"] b.name ∨
            (paramPos ["y", "x"] a.name = paramPos ["y", "x"] b.name ∧
              strLe a.name b.name = true))) ∨
        (a.param.required = b.param.required ∧ strLe a.name b.name = true))
      ceOrderMethod.SortedParams := by
  constructor
  · decide
  · intro hpw
    have : ceOrderMethod.SortedParams.map (fun p => p.name) = ["y", "x"] := by decide
    revert hpw
    decide

/-- C7 (amended).  Sorted parameter and property orders: required entries
precede non-required ones; among entries of equal requiredness, parameters
break ties by position in the declared canonical parameter order (entries
absent from the order sort after those present, encoded by `paramPos`), and
remaining ties break by name; schema properties break ties by name only.
(The amendment: the code applies the parameter-order tie-break to all pairs
of equal requiredness, not only to required ones.)  The spec's
`{zebra, alpha, required, beta}` example emits exactly
`required, alpha, beta, zebra`. -/
theorem sorted_params_properties_ordering :
    (∀ m : MethodInfo,
      m.SortedParams.Perm (m.method.parameters.map (fun p => ParamInfo.mk p.1 p.2)) ∧
      List.Pairwise (fun a b =>
        (a.param.required = true ∧ b.param.required = false) ∨
        (a.param.required = b.param.required ∧
          paramPos m.method.parameterOrder a.name < paramPos m.method.parameterOrder b.name) ∨
        (a.param.required = b.param.required ∧
          paramPos m.method.parameterOrder a.name = paramPos m.method.parameterOrder b.name ∧
          strLe a.name b.name = true)) m.SortedParams) ∧
    (∀ si : SchemaInfo,
      si.SortedProperties.Perm (si.schema.properties.map (fun p =>
        PropertyInfo.mk p.1 p.2 (si.requiredSet.contains p.1 || p.2.required) si.allSchemas)) ∧
      List.Pairwise (fun a b =>
        (a.required = true ∧ b.required = false) ∨
        (a.required = b.required ∧ strLe a.name b.name = true)) si.SortedProperties) ∧
    (examplePropsInfo.SortedProperties.map (fun p => p.name)) =
      ["required", "alpha", "beta", "zebra"] := by
  refine ⟨fun m => ⟨List.perm_insertionSort _ _, ?_⟩,
    fun si => ⟨List.perm_insertionSort _ _, ?_⟩, by decide⟩
  · refine (sortedParams_sorted m).imp ?_
    intro a b hab
    have hnlt := not_tripLt_of_paramLess_false hab
    rcases tripLt_cases (paramKey m.method.parameterOrder a) (paramKey m.method.parameterOrder b)
      with hlt | hlt | heq
    · rcases hlt with hrank | ⟨hrank, hpos | ⟨hpos, hname⟩⟩
      · cases har : a.param.required <;> cases hbr : b.param.required <;>
          simp [paramKey, paramRank, har, hbr] at hrank ⊢
      · refine .inr (.inl ⟨?_, hpos⟩)
        cases har : a.param.required <;> cases hbr : b.param.required <;>
          simp [paramKey, paramRank, har, hbr] at hrank ⊢
      · refine .inr (.inr ⟨?_, hpos, ?_⟩)
        · cases har : a.param.required <;> cases hbr : b.param.required <;>
            simp [paramKey, paramRank, har, hbr] at hrank ⊢
        · exact (strLeB_iff_not_lt).mpr (strLtB_asymm hname)
    · exact absurd hlt hnlt
    · simp only [paramKey, Prod.mk.injEq] at heq
      obtain ⟨hrank, hpos, hdata⟩ := heq
      refine .inr (.inr ⟨?_, hpos, ?_⟩)
      · cases har : a.param.required <;> cases hbr : b.param.required <;>
          simp [paramRank, har, hbr] at hrank ⊢
      · show strLeB a.name.data b.name.data = true
        rw [hdata]
        exact (strLeB_iff_not_lt).mpr (strLtB_irrefl _)
  · refine (sortedProperties_sorted si).imp ?_
    intro a b hab
    have hnlt := not_tripLt_of_propLess_false hab
    rcases tripLt_cases (propKey a) (propKey b) with hlt | hlt | heq
    · rcases hlt with hrank | ⟨hrank, hpos | ⟨hpos, hname⟩⟩
      · cases har : a.required <;> cases hbr : b.required <;>
          simp [propKey, paramRank, har, hbr] at hrank ⊢
      · simp [propKey] at hpos
      · refine .inr ⟨?_, (strLeB_iff_not_lt).mpr (strLtB_asymm hname)⟩
        cases har : a.required <;> cases hbr : b.required <;>
          simp [propKey, paramRank, har, hbr] at hrank ⊢
    · exact absurd hlt hnlt
    · simp only [propKey, Prod.mk.injEq] at heq
      obtain ⟨hrank, _, hdata⟩ := heq
      refine .inr ⟨?_, ?_⟩
      · cases har : a.required <;> cases hbr : b.required <;>
          simp [paramRank, har, hbr] at hrank ⊢
      · show strLeB a.name.data b.name.data = true
        rw [hdata]
        exact (strLeB_iff_not_lt).mpr (strLtB_irrefl _)

/-! ### Sanitization lemmas -/

theorem head?_dropWhile_not (p : Char → Bool) (l : List Char) (c : Char)
    (h : (l.dropWhile p).head? = some c) : p c = false := by
  induction l with
  | nil => simp at h
  | cons a l ih =>
    by_cases pa : p a = true
    · rw [List.dropWhile_cons, if_pos pa] at h
      exact ih h
    · rw [List.dropWhile_cons, if_neg pa] at h
      simp only [List.head?_cons, Option.some.injEq] at h
      subst h
      simpa using pa

theorem mem_replaceChar {a b x : Char} {s : List Char} (h : x ∈ replaceChar a b s) :
    x ∈ s ∨ x = b := by
  obtain ⟨y, hy, hxy⟩ := List.mem_map.mp h
  by_cases hya : y = a
  · rw [if_pos hya] at hxy
    exact .inr hxy.symm
  · rw [if_neg hya] at hxy
    exact .inl (hxy ▸ hy)

theorem not_mem_replaceChar {a b : Char} (hne : b ≠ a) (s : List Char) :
    a ∉ replaceChar a b s := by
  intro h
  obtain ⟨y, _, hxy⟩ := List.mem_map.mp h
  by_cases hya : y = a
  · rw [if_pos hya] at hxy
    exact hne hxy
  · rw [if_neg hya] at hxy
    exact hya hxy

theorem mem_trimSpace {x : Char} {s : List Char} (h : x ∈ trimSpace s) : x ∈ s := by
  unfold trimSpace at h
  rw [List.mem_reverse] at h
  have h2 := (List.dropWhile_sublist goIsSpace).mem h
  rw [List.mem_reverse] at h2
  exact (List.dropWhile_sublist goIsSpace).mem h2

theorem mem_collapseOnce {x : Char} {s : List Char} (h : x ∈ collapseOnce s) :
    x ∈ s ∨ x = ' ' := by
  induction s using collapseOnce.induct with
  | case1 rest ih =>
    rw [collapseOnce.eq_1] at h
    rcases List.mem_cons.mp h with h | h
    · exact .inr h
    · rcases ih h with h | h
      · exact .inl (by simp [h])
      · exact .inr h
  | case2 c rest hne ih =>
    rw [collapseOnce.eq_2 _ _ hne] at h
    rcases List.mem_cons.mp h with h | h
    · exact .inl (by simp [h])
    · rcases ih h with h | h
      · exact .inl (by simp [h])
      · exact .inr h
  | case3 => simp [collapseOnce] at h

theorem mem_collapseSpaces {x : Char} {s : List Char} (h : x ∈ collapseSpaces s) :
    x ∈ s ∨ x = ' ' := by
  induction s using collapseSpaces.induct with
  | case1 s hd ih =>
    rw [collapseSpaces_step s hd] at h
    rcases ih h with h2 | h2
    · exact mem_collapseOnce h2
    · exact .inr h2
  | case2 s hd =>
    rw [collapseSpaces_done s (by simpa using hd)] at h
    exact .inl h

theorem hasDoubleSpace_collapseSpaces (s : List Char) :
    hasDoubleSpace (collapseSpaces s) = false := by
  induction s using collapseSpaces.induct with
  | case1 s hd ih =>
    rw [collapseSpaces_step s hd]
    exact ih
  | case2 s hd =>
    rw [collapseSpaces_done s (by simpa using hd)]
    simpa using hd

theorem collapseOnce_ne_nil {s : List Char} (h : s ≠ []) : collapseOnce s ≠ [] := by
  induction s using collapseOnce.induct with
  | case1 rest _ => rw [collapseOnce.eq_1]; simp
  | case2 c rest hne _ => rw [collapseOnce.eq_2 _ _ hne]; simp
  | case3 => exact absurd rfl h

theorem collapseOnce_head? (s : List Char) (h : s.head? ≠ some ' ') :
    (collapseOnce s).head? = s.head? := by
  cases s with
  | nil => rfl
  | cons c rest =>
    have hc : c ≠ ' ' := by
      intro he
      subst he
      exact h rfl
    rw [collapseOnce.eq_2 _ _ (fun _ he _ => hc he)]
    rfl

theorem getLast?_cons_of_ne_nil {a : Char} {l : List Char} (h : l ≠ []) :
    (a :: l).getLast? = l.getLast? := by
  cases l with
  | nil => exact absurd rfl h
  | cons b l' => exact List.getLast?_cons_cons

theorem collapseOnce_getLast? (s : List Char) (h : s.getLast? ≠ some ' ') :
    (collapseOnce s).getLast? = s.getLast? := by
  induction s using collapseOnce.induct with
  | case1 rest ih =>
    cases hr : rest with
    | nil =>
      subst hr
      simp [List.getLast?_cons_cons] at h
    | cons r0 rest' =>
      subst hr
      have hlast : (' ' :: ' ' :: r0 :: rest').getLast? = (r0 :: rest').getLast? := by
        rw [List.getLast?_cons_cons, List.getLast?_cons_cons]
      rw [hlast] at h ⊢
      rw [collapseOnce.eq_1]
      rw [getLast?_cons_of_ne_nil (collapseOnce_ne_nil (by simp))]
      exact ih h
  | case2 c rest hne ih =>
    rw [collapseOnce.eq_2 _ _ hne]
    cases hr : rest with
    | nil =>
      subst hr
      rfl
    | cons r0 rest' =>
      subst hr
      have hlast : (c :: r0 :: rest').getLast? = (r0 :: rest').getLast? :=
        List.getLast?_cons_cons
      rw [hlast] at h
      rw [getLast?_cons_of_ne_nil (collapseOnce_ne_nil (by simp)), hlast]
      exact ih h
  | case3 => rfl

theorem collapseSpaces_head? (s : List Char) (h : s.head? ≠ some ' ') :
    (collapseSpaces s).head? = s.head? := by
  induction s using collapseSpaces.induct with
  | case1 s hd ih =>
    rw [collapseSpaces_step s hd]
    have hco := collapseOnce_head? s h
    rw [ih (by rw [hco]; exact h), hco]
  | case2 s hd =>
    rw [collapseSpaces_done s (by simpa using hd)]

theorem collapseSpaces_getLast? (s : List Char) (h : s.getLast? ≠ some ' ') :
    (collapseSpaces s).getLast? = s.getLast? := by
  induction s using collapseSpaces.induct with
  | case1 s hd ih =>
    rw [collapseSpaces_step s hd]
    have hco := collapseOnce_getLast? s h
    rw [ih (by rw [hco]; exact h), hco]
  | case2 s hd =>
    rw [collapseSpaces_done s (by simpa using hd)]

theorem trimSpace_head? (s : List Char) (ch : Char) (h : (trimSpace s).head? = some ch) :
    goIsSpace ch = false := by
  unfold trimSpace at h
  set t := s.dropWhile goIsSpace with ht
  have hdec : t = ((t.reverse.dropWhile goIsSpace).reverse) ++
      ((t.reverse.takeWhile goIsSpace).reverse) := by
    rw [← List.reverse_append, List.takeWhile_append_dropWhile, List.reverse_reverse]
  have hne : (t.reverse.dropWhile goIsSpace).reverse ≠ [] := by
    intro hnil
    rw [hnil] at h
    simp at h
  have hht : t.head? = some ch := by
    rw [hdec, List.head?_append_of_ne_nil _ hne]
    exact h
  exact head?_dropWhile_not goIsSpace s ch (ht ▸ hht)

theorem trimSpace_getLast? (s : List Char) (ch : Char) (h : (trimSpace s).getLast? = some ch) :
    goIsSpace ch = false := by
  unfold trimSpace at h
  rw [← List.head?_reverse, List.reverse_reverse] at h
  exact head?_dropWhile_not goIsSpace _ ch h

/-! ### C9: description sanitization and truncation (corrected) -/

/-- C9 counterexample.  The claim says repeated whitespace is collapsed, but
the code only collapses repeated space characters: consecutive tabs (which
are whitespace) survive `cleanDescription` untouched. -/
theorem clean_description_claim_counterexample :
    cleanDescription ['a', '\t', '\t', 'b'] = ['a'] ++ ['\t', '\t'] ++ ['b'] ∧
    goIsSpace '\t' = true := by
  refine ⟨?_, by decide⟩
  show collapseSpaces (trimSpace _) = _
  rw [show trimSpace (replaceChar (Char.ofNat 96) '\''
    (replaceChar '"' '\'' (replaceChar '\n' ' ' ['a', '\t', '\t', 'b']))) =
      ['a', '\t', '\t', 'b'] from by decide]
  rw [collapseSpaces_done _ (by decide)]
  decide

/-- C9 (amended).  `cleanDescription` replaces newlines by spaces, replaces
double quotes and backticks (`Char.ofNat 96`) by apostrophes, collapses
repeated *space characters* (the amendment: other repeated whitespace such
as tabs is not collapsed), trims leading and trailing whitespace, and its
collapse loop terminates (the fixpoint is reached: no double space remains).
The final tool description is at most 200 bytes and is the 197-byte prefix
followed by `...` exactly when the cleaned description exceeds 200 bytes. -/
theorem clean_description_sanitization :
    (∀ desc : List Char,
      '\n' ∉ cleanDescription desc ∧
      '"' ∉ cleanDescription desc ∧
      Char.ofNat 96 ∉ cleanDescription desc ∧
      hasDoubleSpace (cleanDescription desc) = false ∧
      (∀ ch, (cleanDescription desc).head? = some ch → goIsSpace ch = false) ∧
      (∀ ch, (cleanDescription desc).getLast? = some ch → goIsSpace ch = false)) ∧
    (∀ m : MethodInfo,
      m.Description.length ≤ 200 ∧
      (200 < (cleanDescription m.method.description).length →
        m.Description.length = 200 ∧
        m.Description = (cleanDescription m.method.description).take 197 ++ ['.', '.', '.']) ∧
      ((cleanDescription m.method.description).length ≤ 200 →
        m.Description = cleanDescription m.method.description)) := by
  constructor
  · intro desc
    unfold cleanDescription
    set d1 := replaceChar '\n' ' ' desc with hd1
    set d2 := replaceChar '"' '\'' d1 with hd2
    set d3 := replaceChar (Char.ofNat 96) '\'' d2 with hd3
    set d4 := trimSpace d3 with hd4
    have hmem : ∀ x : Char, x ∈ collapseSpaces d4 → x ∈ d3 ∨ x = ' ' := by
      intro x hx
      rcases mem_collapseSpaces hx with hx | hx
      · exact .inl (mem_trimSpace hx)
      · exact .inr hx
    refine ⟨?_, ?_, ?_, hasDoubleSpace_collapseSpaces _, ?_, ?_⟩
    · intro h
      rcases hmem _ h with h | h
      · rcases mem_replaceChar h with h | h
        · rcases mem_replaceChar h with h | h
          · exact not_mem_replaceChar (by decide) desc h
          · exact absurd h (by decide)
        · exact absurd h (by decide)
      · exact absurd h (by decide)
    · intro h
      rcases hmem _ h with h | h
      · rcases mem_replaceChar h with h | h
        · exact not_mem_replaceChar (by decide) d1 h
        · exact absurd h (by decide)
      · exact absurd h (by decide)
    · intro h
      rcases hmem _ h with h | h
      · exact not_mem_replaceChar (by decide) d2 h
      · exact absurd h (by decide)
    · intro ch hch
      have hne : d4.head? ≠ some ' ' := by
        intro he
        have := trimSpace_head? d3 ' ' (hd4 ▸ he)
        simp [goIsSpace] at this
      rw [collapseSpaces_head? _ hne] at hch
      exact trimSpace_head? d3 ch (hd4 ▸ hch)
    · intro ch hch
      have hne : d4.getLast? ≠ some ' ' := by
        intro he
        have := trimSpace_getLast? d3 ' ' (hd4 ▸ he)
        simp [goIsSpace] at this
      rw [collapseSpaces_getLast? _ hne] at hch
      exact trimSpace_getLast? d3 ch (hd4 ▸ hch)
  · intro m
    unfold MethodInfo.Description
    set c := cleanDescription m.method.description with hc
    by_cases hlen : 200 < c.length
    · rw [if_pos hlen]
      have h197 : (c.take 197).length = 197 := by
        rw [List.length_take]
        omega
      refine ⟨?_, fun _ => ⟨?_, rfl⟩, fun hle => by omega⟩ <;>
        simp [List.length_append, h197]
    · rw [if_neg hlen]
      exact ⟨by omega, fun h => absurd h hlen, fun _ => rfl⟩

theorem hasDoubleSpace_replicate (n : Nat) {c : Char} (hc : c ≠ ' ') :
    hasDoubleSpace (List.replicate n c) = false := by
  induction n with
  | zero => rfl
  | succ n ih =>
    cases n with
    | zero => rfl
    | succ m =>
      show hasDoubleSpace (c :: c :: List.replicate m c) = false
      simp only [hasDoubleSpace]
      rw [show (c :: List.replicate m c) = List.replicate (m + 1) c from rfl, ih]
      simp [hc]

theorem cleanDescription_replicate_a : ∀ n : Nat,
    cleanDescription (List.replicate (n + 1) 'a') = List.replicate (n + 1) 'a' := by
  intro n
  show collapseSpaces (trimSpace _) = _
  have hrep : ∀ a b : Char, a ≠ 'a' →
      replaceChar a b (List.replicate (n + 1) 'a') = List.replicate (n + 1) 'a' := by
    intro a b ha
    unfold replaceChar
    rw [List.map_replicate, if_neg (fun he => ha he.symm)]
  rw [hrep '\n' ' ' (by decide), hrep '"' '\'' (by decide), hrep (Char.ofNat 96) '\'' (by decide)]
  have htrim : trimSpace (List.replicate (n + 1) 'a') = List.replicate (n + 1) 'a' := by
    unfold trimSpace
    rw [show List.replicate (n + 1) 'a' = 'a' :: List.replicate n 'a' from rfl]
    rw [List.dropWhile_cons, if_neg (by decide)]
    rw [show ('a' :: List.replicate n 'a') = List.replicate (n + 1) 'a' from rfl]
    rw [List.reverse_replicate]
    rw [show List.replicate (n + 1) 'a' = 'a' :: List.replicate n 'a' from rfl]
    rw [List.dropWhile_cons, if_neg (by decide)]
    rw [show ('a' :: List.replicate n 'a') = List.replicate (n + 1) 'a' from rfl]
    rw [List.reverse_replicate]
  rw [htrim]
  exact collapseSpaces_done _ (hasDoubleSpace_replicate _ (by decide))

/-- C9 witness: concrete sanitization behaviour — no newline survives
cleaning of `" a\nb "`, an empty description stays untruncated, and a
205-byte description is truncated to exactly 200 bytes. -/
theorem clean_description_sanitization_witness :
    '\n' ∉ cleanDescription " a\nb ".data ∧
    ((MethodInfo.mk "m" (mkMethod [] [] none none) "" "API").Description =
        cleanDescription [] ∧
      (⟨"m", { mkMethod [] [] none none with description := List.replicate 205 'a' }, "",
          "API"⟩ : MethodInfo).Description.length = 200) := by
  have hnil : cleanDescription ([] : List Char) = [] := by
    show collapseSpaces (trimSpace _) = _
    rw [show trimSpace (replaceChar (Char.ofNat 96) '\''
      (replaceChar '"' '\'' (replaceChar '\n' ' ' ([] : List Char)))) = [] from rfl]
    exact collapseSpaces_done [] rfl
  refine ⟨(clean_description_sanitization.1 " a\nb ".data).1, ?_, ?_⟩
  · refine (clean_description_sanitization.2 _).2.2 ?_
    show (cleanDescription ([] : List Char)).length ≤ 200
    rw [hnil]
    simp
  · refine ((clean_description_sanitization.2 _).2.1 ?_).1
    show 200 < (cleanDescription (List.replicate (204 + 1) 'a')).length
    rw [cleanDescription_replicate_a 204, List.length_replicate]
    omega

/-! ### Structural induction for the schema walk -/

theorem propsSize_lt_mk (i t f : String) (d : List Char) (props : List (String × Schema))
    (items addProps : Option Schema) (rf df : String) (en : List String) (rq ro : Bool)
    (an : Option Annotations) :
    propsSize props < schemaSize (.mk i t f d props items addProps rf df en rq ro an) := by
  cases items <;> cases addProps <;> simp [schemaSize] <;> omega

theorem itemsSize_lt_mk (i t f : String) (d : List Char) (props : List (String × Schema))
    {items : Option Schema} (addProps : Option Schema) (rf df : String) (en : List String)
    (rq ro : Bool) (an : Option Annotations) {it : Schema} (hit : items = some it) :
    schemaSize it < schemaSize (.mk i t f d props items addProps rf df en rq ro an) := by
  subst hit
  cases addProps <;> simp [schemaSize] <;> omega

theorem addPropsSize_lt_mk (i t f : String) (d : List Char) (props : List (String × Schema))
    (items : Option Schema) {addProps : Option Schema} (rf df : String) (en : List String)
    (rq ro : Bool) (an : Option Annotations) {ap : Schema} (hap : addProps = some ap) :
    schemaSize ap < schemaSize (.mk i t f d props items addProps rf df en rq ro an) := by
  subst hap
  cases items <;> simp [schemaSize] <;> omega

theorem headSize_lt_cons (n : String) (s : Schema) (rest : List (String × Schema)) :
    schemaSize s < propsSize ((n, s) :: rest) := by
  simp only [propsSize]
  omega

theorem tailSize_lt_cons (n : String) (s : Schema) (rest : List (String × Schema)) :
    propsSize rest < propsSize ((n, s) :: rest) := by
  simp only [propsSize]
  omega

/-- Mutual structural induction over `Schema` and property lists. -/
theorem schema_mutual_induction (motiveS : Schema → Prop)
    (motiveP : List (String × Schema) → Prop)
    (hmk : ∀ i t f d props items addProps rf df en rq ro an,
      motiveP props →
      (∀ it, items = some it → motiveS it) →
      (∀ ap, addProps = some ap → motiveS ap) →
      motiveS (.mk i t f d props items addProps rf df en rq ro an))
    (hnil : motiveP [])
    (hcons : ∀ n s rest, motiveS s → motiveP rest → motiveP ((n, s) :: rest)) :
    (∀ s, motiveS s) ∧ (∀ props, motiveP props) := by
  have key : ∀ bound : Nat, (∀ s, schemaSize s ≤ bound → motiveS s) ∧
      (∀ props, propsSize props ≤ bound → motiveP props) := by
    intro bound
    induction bound using Nat.strong_induction_on with
    | _ bound ih =>
      constructor
      · intro s hs
        cases s with
        | mk i t f d props items addProps rf df en rq ro an =>
          apply hmk
          · have h1 := propsSize_lt_mk i t f d props items addProps rf df en rq ro an
            exact (ih (propsSize props) (by omega)).2 props le_rfl
          · intro it hit
            have h1 := itemsSize_lt_mk i t f d props addProps rf df en rq ro an hit
            exact (ih (schemaSize it) (by omega)).1 it le_rfl
          · intro ap hap
            have h1 := addPropsSize_lt_mk i t f d props items rf df en rq ro an hap
            exact (ih (schemaSize ap) (by omega)).1 ap le_rfl
      · intro props hp
        cases props with
        | nil => exact hnil
        | cons p rest =>
          obtain ⟨n, s⟩ := p
          apply hcons
          · have h1 := headSize_lt_cons n s rest
            exact (ih (schemaSize s) (by omega)).1 s le_rfl
          · have h1 := tailSize_lt_cons n s rest
            exact (ih (propsSize rest) (by omega)).2 rest le_rfl
  exact ⟨fun s => (key (schemaSize s)).1 s le_rfl,
    fun props => (key (propsSize props)).2 props le_rfl⟩

/-- Definitional equation exposing the walk body through
`collectFromParts`. -/
theorem collectFromSchema_eq (visit : String → List String → List String)
    (i t f : String) (d : List Char) (props : List (String × Schema))
    (items addProps : Option Schema) (rf df : String) (en : List String) (rq ro : Bool)
    (an : Option Annotations) (nd : List String) :
    collectFromSchema visit (.mk i t f d props items addProps rf df en rq ro an) nd =
      collectFromParts visit props items addProps (if rf ≠ "" then visit rf nd else nd) := by
  rw [collectFromSchema.eq_def, collectFromParts.eq_def]

/-- `collectFromParts` decomposed into its three sequential stages. -/
theorem collectFromParts_decompose (visit : String → List String → List String)
    (props : List (String × Schema)) (items addProps : Option Schema) (nd : List String) :
    collectFromParts visit props items addProps nd =
      (match addProps with
        | some ap => collectFromSchema visit ap
            (match items with
              | some it => collectFromSchema visit it (collectFromProps visit props nd)
              | none => collectFromProps visit props nd)
        | none =>
          (match items with
            | some it => collectFromSchema visit it (collectFromProps visit props nd)
            | none => collectFromProps visit props nd)) := by
  rw [collectFromParts.eq_def]

/-! ### The visited-set invariant -/

theorem AddsOK_refl (allSchemas : List (String × Schema)) (nd : List String) :
    AddsOK allSchemas nd nd :=
  ⟨[], rfl, by simp, fun h => h⟩

theorem AddsOK_trans {allSchemas : List (String × Schema)} {nd r1 r2 : List String}
    (h1 : AddsOK allSchemas nd r1) (h2 : AddsOK allSchemas r1 r2) :
    AddsOK allSchemas nd r2 := by
  obtain ⟨new1, e1, p1, n1⟩ := h1
  obtain ⟨new2, e2, p2, n2⟩ := h2
  refine ⟨new2 ++ new1, by rw [e2, e1, List.append_assoc], ?_, fun h => n2 (n1 h)⟩
  intro x hx
  rcases List.mem_append.mp hx with hx | hx
  · have := p2 x hx
    refine ⟨this.1, fun hmem => this.2 ?_⟩
    rw [e1]
    exact List.mem_append_right _ hmem
  · exact p1 x hx

theorem AddsOK_sub {allSchemas : List (String × Schema)} {nd res : List String}
    (h : AddsOK allSchemas nd res) : ∀ x ∈ nd, x ∈ res := by
  obtain ⟨new, e, _, _⟩ := h
  intro x hx
  rw [e]
  exact List.mem_append_right _ hx

theorem lookupName_mem_keys {allSchemas : List (String × Schema)} {n : String} {s : Schema}
    (h : lookupName allSchemas n = some s) : n ∈ schemaKeys allSchemas := by
  rw [schemaKeys, List.mem_dedup]
  induction allSchemas with
  | nil => cases h
  | cons p rest ih =>
    obtain ⟨k, v⟩ := p
    by_cases hk : k = n
    · subst hk
      simp
    · rw [lookupName, if_neg hk] at h
      rw [List.map_cons]
      exact List.mem_cons_of_mem _ (ih h)

theorem collectWalk_addsOK (allSchemas : List (String × Schema))
    (visit : String → List String → List String)
    (hv : ∀ n nd, AddsOK allSchemas nd (visit n nd)) :
    (∀ s nd, AddsOK allSchemas nd (collectFromSchema visit s nd)) ∧
    (∀ props nd, AddsOK allSchemas nd (collectFromProps visit props nd)) := by
  apply schema_mutual_induction
    (fun s => ∀ nd, AddsOK allSchemas nd (collectFromSchema visit s nd))
    (fun props => ∀ nd, AddsOK allSchemas nd (collectFromProps visit props nd))
  · intro i t f d props items addProps rf df en rq ro an hp hit hap nd
    rw [collectFromSchema_eq, collectFromParts_decompose]
    have h1 : AddsOK allSchemas nd (if rf ≠ "" then visit rf nd else nd) := by
      split
      · exact hv rf nd
      · exact AddsOK_refl _ _
    refine AddsOK_trans h1 (AddsOK_trans (hp _) ?_)
    cases items with
    | none =>
      cases addProps with
      | none => exact AddsOK_refl _ _
      | some ap => exact hap ap rfl _
    | some it =>
      cases addProps with
      | none => exact hit it rfl _
      | some ap => exact AddsOK_trans (hit it rfl _) (hap ap rfl _)
  · intro nd
    exact AddsOK_refl _ _
  · intro n s rest hs hrest nd
    rw [collectFromProps]
    exact AddsOK_trans (hs nd) (hrest _)

theorem collectFromParts_addsOK (allSchemas : List (String × Schema))
    (visit : String → List String → List String)
    (hv : ∀ n nd, AddsOK allSchemas nd (visit n nd))
    (props : List (String × Schema)) (items addProps : Option Schema) (nd : List String) :
    AddsOK allSchemas nd (collectFromParts visit props items addProps nd) := by
  rw [collectFromParts_decompose]
  refine AddsOK_trans ((collectWalk_addsOK allSchemas visit hv).2 props nd) ?_
  cases items with
  | none =>
    cases addProps with
    | none => exact AddsOK_refl _ _
    | some ap => exact (collectWalk_addsOK allSchemas visit hv).1 ap _
  | some it =>
    cases addProps with
    | none => exact (collectWalk_addsOK allSchemas visit hv).1 it _
    | some ap =>
      exact AddsOK_trans ((collectWalk_addsOK allSchemas visit hv).1 it _)
        ((collectWalk_addsOK allSchemas visit hv).1 ap _)

theorem collectSchemaRefsF_addsOK (allSchemas : List (String × Schema)) :
    ∀ (fuel : Nat) (n : String) (nd : List String),
      AddsOK allSchemas nd (collectSchemaRefsF allSchemas fuel n nd) := by
  intro fuel
  induction fuel with
  | zero => intro n nd; exact AddsOK_refl _ _
  | succ fuel ih =>
    intro n nd
    rw [collectSchemaRefsF]
    by_cases hmem : n ∈ nd
    · rw [if_pos hmem]
      exact AddsOK_refl _ _
    · rw [if_neg hmem]
      cases hl : lookupName allSchemas n with
      | none => exact AddsOK_refl _ _
      | some schema =>
        have hstep : AddsOK allSchemas nd (n :: nd) := by
          refine ⟨[n], rfl, ?_, ?_⟩
          · intro x hx
            rw [List.mem_singleton] at hx
            subst hx
            exact ⟨lookupName_mem_keys hl, hmem⟩
          · intro h
            exact List.nodup_cons.mpr ⟨hmem, h⟩
        exact AddsOK_trans hstep
          (collectFromParts_addsOK allSchemas _ (fun n' nd' => ih n' nd') _ _ _ _)

/-! ### The decreasing measure and fuel stabilization -/

theorem filter_length_mono {α : Type} {p q : α → Bool} (l : List α)
    (h : ∀ a, p a = true → q a = true) : (l.filter p).length ≤ (l.filter q).length := by
  induction l with
  | nil => simp
  | cons a l ih =>
    by_cases hpa : p a = true
    · rw [List.filter_cons_of_pos hpa, List.filter_cons_of_pos (h a hpa)]
      simpa using ih
    · rw [List.filter_cons_of_neg (by simpa using hpa)]
      rcases hqa : q a with _ | _
      · rw [List.filter_cons_of_neg (by simp [hqa])]
        exact ih
      · rw [List.filter_cons_of_pos hqa]
        exact le_trans ih (by simp)

theorem unvisited_le_length (allSchemas : List (String × Schema)) (nd : List String) :
    unvisited allSchemas nd ≤ allSchemas.length := by
  unfold unvisited
  calc ((schemaKeys allSchemas).filter _).length
      ≤ (schemaKeys allSchemas).length := List.length_filter_le _ _
    _ ≤ (allSchemas.map Prod.fst).length := (List.dedup_sublist _).length_le
    _ = allSchemas.length := List.length_map _ _

theorem unvisited_cons (allSchemas : List (String × Schema)) {n : String} {nd : List String}
    (hk : n ∈ schemaKeys allSchemas) (hn : n ∉ nd) :
    unvisited allSchemas (n :: nd) + 1 = unvisited allSchemas nd := by
  unfold unvisited
  have hfil : (schemaKeys allSchemas).filter (fun k => decide (k ∉ n :: nd)) =
      ((schemaKeys allSchemas).filter (fun k => decide (k ∉ nd))).filter
        (fun k => decide (k ≠ n)) := by
    rw [List.filter_filter]
    apply List.filter_congr
    intro x _
    simp [List.mem_cons, not_or, and_comm]
  rw [hfil]
  set l := (schemaKeys allSchemas).filter (fun k => decide (k ∉ nd)) with hl
  have hnodup : l.Nodup := List.Nodup.filter _ (List.nodup_dedup _)
  have hmem : n ∈ l := by
    rw [hl, List.mem_filter]
    exact ⟨hk, by simpa using hn⟩
  have herase : l.filter (fun k => decide (k ≠ n)) = l.erase n := by
    rw [List.Nodup.erase_eq_filter hnodup]
    apply List.filter_congr
    intro x _
    by_cases hxn : x = n <;> simp [bne, hxn]
  rw [herase, List.length_erase_of_mem hmem]
  have : 1 ≤ l.length := List.length_pos.mpr (List.ne_nil_of_mem hmem)
  omega

theorem unvisited_mono (allSchemas : List (String × Schema)) {nd res : List String}
    (h : AddsOK allSchemas nd res) :
    unvisited allSchemas res ≤ unvisited allSchemas nd := by
  unfold unvisited
  apply filter_length_mono
  intro a ha
  simp only [decide_eq_true_eq] at *
  intro hmem
  exact ha (AddsOK_sub h a hmem)

theorem collectWalk_congr (allSchemas : List (String × Schema))
    (visit1 visit2 : String → List String → List String) (u : Nat)
    (hv1 : ∀ n nd, AddsOK allSchemas nd (visit1 n nd))
    (hagree : ∀ n nd, unvisited allSchemas nd ≤ u → visit1 n nd = visit2 n nd) :
    (∀ s nd, unvisited allSchemas nd ≤ u →
      collectFromSchema visit1 s nd = collectFromSchema visit2 s nd) ∧
    (∀ props nd, unvisited allSchemas nd ≤ u →
      collectFromProps visit1 props nd = collectFromProps visit2 props nd) := by
  apply schema_mutual_induction
    (fun s => ∀ nd, unvisited allSchemas nd ≤ u →
      collectFromSchema visit1 s nd = collectFromSchema visit2 s nd)
    (fun props => ∀ nd, unvisited allSchemas nd ≤ u →
      collectFromProps visit1 props nd = collectFromProps visit2 props nd)
  · intro i t f d props items addProps rf df en rq ro an hp hit hap nd hnd
    rw [collectFromSchema_eq, collectFromSchema_eq]
    have hstep : (if rf ≠ "" then visit2 rf nd else nd) = (if rf ≠ "" then visit1 rf nd else nd) := by
      split
      · exact (hagree rf nd hnd).symm
      · rfl
    rw [hstep]
    have h1 : unvisited allSchemas (if rf ≠ "" then visit1 rf nd else nd) ≤ u := by
      refine le_trans (unvisited_mono allSchemas ?_) hnd
      split
      · exact hv1 rf nd
      · exact AddsOK_refl _ _
    set nd1 := if rf ≠ "" then visit1 rf nd else nd with hnd1def
    rw [collectFromParts_decompose, collectFromParts_decompose]
    have h2 : collectFromProps visit2 props nd1 = collectFromProps visit1 props nd1 :=
      (hp nd1 h1).symm
    rw [h2]
    have h2u : unvisited allSchemas (collectFromProps visit1 props nd1) ≤ u :=
      le_trans (unvisited_mono allSchemas ((collectWalk_addsOK allSchemas visit1 hv1).2 props nd1))
        h1
    set nd2 := collectFromProps visit1 props nd1 with hnd2def
    cases items with
    | none =>
      cases addProps with
      | none => rfl
      | some ap => exact hap ap rfl nd2 h2u
    | some it =>
      dsimp only
      have h3 : collectFromSchema visit2 it nd2 = collectFromSchema visit1 it nd2 :=
        (hit it rfl nd2 h2u).symm
      rw [h3]
      have h3u : unvisited allSchemas (collectFromSchema visit1 it nd2) ≤ u :=
        le_trans (unvisited_mono allSchemas ((collectWalk_addsOK allSchemas visit1 hv1).1 it nd2))
          h2u
      cases addProps with
      | none => rfl
      | some ap => exact hap ap rfl _ h3u
  · intro nd _
    rfl
  · intro n s rest hs hrest nd hnd
    rw [collectFromProps, collectFromProps]
    have h1 : collectFromSchema visit2 s nd = collectFromSchema visit1 s nd := (hs nd hnd).symm
    rw [h1]
    exact hrest _
      (le_trans (unvisited_mono allSchemas ((collectWalk_addsOK allSchemas visit1 hv1).1 s nd))
        hnd)

theorem collectFromParts_congr (allSchemas : List (String × Schema))
    (visit1 visit2 : String → List String → List String) (u : Nat)
    (hv1 : ∀ n nd, AddsOK allSchemas nd (visit1 n nd))
    (hagree : ∀ n nd, unvisited allSchemas nd ≤ u → visit1 n nd = visit2 n nd)
    (props : List (String × Schema)) (items addProps : Option Schema) (nd : List String)
    (hnd : unvisited allSchemas nd ≤ u) :
    collectFromParts visit1 props items addProps nd =
      collectFromParts visit2 props items addProps nd := by
  rw [collectFromParts_decompose, collectFromParts_decompose]
  have h2 : collectFromProps visit2 props nd = collectFromProps visit1 props nd :=
    ((collectWalk_congr allSchemas visit1 visit2 u hv1 hagree).2 props nd hnd).symm
  rw [h2]
  have h2u : unvisited allSchemas (collectFromProps visit1 props nd) ≤ u :=
    le_trans (unvisited_mono allSchemas ((collectWalk_addsOK allSchemas visit1 hv1).2 props nd))
      hnd
  set nd2 := collectFromProps visit1 props nd with hnd2def
  cases items with
  | none =>
    cases addProps with
    | none => rfl
    | some ap => exact (collectWalk_congr allSchemas visit1 visit2 u hv1 hagree).1 ap nd2 h2u
  | some it =>
    dsimp only
    have h3 : collectFromSchema visit2 it nd2 = collectFromSchema visit1 it nd2 :=
      ((collectWalk_congr allSchemas visit1 visit2 u hv1 hagree).1 it nd2 h2u).symm
    rw [h3]
    have h3u : unvisited allSchemas (collectFromSchema visit1 it nd2) ≤ u :=
      le_trans (unvisited_mono allSchemas ((collectWalk_addsOK allSchemas visit1 hv1).1 it nd2))
        h2u
    cases addProps with
    | none => rfl
    | some ap => exact (collectWalk_congr allSchemas visit1 visit2 u hv1 hagree).1 ap _ h3u

/-- Fuel stabilization: any two fuels exceeding the number of unvisited
schema names compute the same result — the Go recursion terminates at
bounded depth on every (possibly cyclic) schema mapping. -/
theorem collectSchemaRefsF_stable (allSchemas : List (String × Schema)) :
    ∀ (u : Nat) (nd : List String) (n : String) (f1 f2 : Nat),
      unvisited allSchemas nd ≤ u → u < f1 → u < f2 →
      collectSchemaRefsF allSchemas f1 n nd = collectSchemaRefsF allSchemas f2 n nd := by
  intro u
  induction u using Nat.strong_induction_on with
  | _ u ih =>
    intro nd n f1 f2 hnd h1 h2
    obtain ⟨g1, rfl⟩ : ∃ g, f1 = g + 1 := ⟨f1 - 1, by omega⟩
    obtain ⟨g2, rfl⟩ : ∃ g, f2 = g + 1 := ⟨f2 - 1, by omega⟩
    rw [collectSchemaRefsF, collectSchemaRefsF]
    by_cases hmem : n ∈ nd
    · rw [if_pos hmem, if_pos hmem]
    · rw [if_neg hmem, if_neg hmem]
      cases hl : lookupName allSchemas n with
      | none => rfl
      | some schema =>
        have hk := lookupName_mem_keys hl
        have hcons := unvisited_cons allSchemas hk hmem
        have hu1 : 1 ≤ u := by omega
        apply collectFromParts_congr allSchemas _ _ (u - 1)
          (fun n' nd' => collectSchemaRefsF_addsOK allSchemas g1 n' nd')
          (fun n' nd' h' => ih (u - 1) (by omega) nd' n' g1 g2 h' (by omega) (by omega))
        omega

/-- `allSchemas.length + 1` fuel is always sufficient: more fuel never
changes the result of `collectSchemaRefs`. -/
theorem collectSchemaRefs_fuel_stable (allSchemas : List (String × Schema)) (n : String)
    (nd : List String) (extra : Nat) :
    collectSchemaRefsF allSchemas (allSchemas.length + 1 + extra) n nd =
      collectSchemaRefs n allSchemas nd := by
  rw [collectSchemaRefs]
  exact collectSchemaRefsF_stable allSchemas (unvisited allSchemas nd) nd n _ _
    le_rfl (by have := unvisited_le_length allSchemas nd; omega)
    (by have := unvisited_le_length allSchemas nd; omega)

/-! ### Soundness: collected names are reachable -/

theorem nodeRefs_mk (i t f : String) (d : List Char) (props : List (String × Schema))
    (items addProps : Option Schema) (rf df : String) (en : List String) (rq ro : Bool)
    (an : Option Annotations) :
    nodeRefs (.mk i t f d props items addProps rf df en rq ro an) =
      (if rf ≠ "" then [rf] else []) ++ propsRefs props ++
        (match items with | some it => nodeRefs it | none => []) ++
        (match addProps with | some ap => nodeRefs ap | none => []) := by
  rw [nodeRefs.eq_def]

theorem topRefs_mk (i t f : String) (d : List Char) (props : List (String × Schema))
    (items addProps : Option Schema) (rf df : String) (en : List String) (rq ro : Bool)
    (an : Option Annotations) :
    topRefs (.mk i t f d props items addProps rf df en rq ro an) =
      propsRefs props ++
        (match items with | some it => nodeRefs it | none => []) ++
        (match addProps with | some ap => nodeRefs ap | none => []) := by
  rw [topRefs.eq_def]

theorem topRefs_sub_nodeRefs {b : String} {s : Schema} (h : b ∈ topRefs s) : b ∈ nodeRefs s := by
  cases s with
  | mk i t f d props items addProps rf df en rq ro an =>
    rw [topRefs_mk] at h
    rw [nodeRefs_mk]
    simp only [List.append_assoc, List.mem_append] at h ⊢
    exact .inr h

theorem mem_propsRefs_cons_head {b n : String} {s : Schema} {rest : List (String × Schema)}
    (h : b ∈ nodeRefs s) : b ∈ propsRefs ((n, s) :: rest) := by
  rw [propsRefs]
  exact List.mem_append_left _ h

theorem mem_propsRefs_cons_tail {b n : String} {s : Schema} {rest : List (String × Schema)}
    (h : b ∈ propsRefs rest) : b ∈ propsRefs ((n, s) :: rest) := by
  rw [propsRefs]
  exact List.mem_append_right _ h

theorem collectWalk_sound (allSchemas : List (String × Schema))
    (visit : String → List String → List String)
    (hv : ∀ n nd x, x ∈ visit n nd → x ∈ nd ∨ Reaches allSchemas n x) :
    (∀ s nd x, x ∈ collectFromSchema visit s nd →
      x ∈ nd ∨ ∃ b, b ∈ nodeRefs s ∧ Reaches allSchemas b x) ∧
    (∀ props nd x, x ∈ collectFromProps visit props nd →
      x ∈ nd ∨ ∃ b, b ∈ propsRefs props ∧ Reaches allSchemas b x) := by
  apply schema_mutual_induction
    (fun s => ∀ nd x, x ∈ collectFromSchema visit s nd →
      x ∈ nd ∨ ∃ b, b ∈ nodeRefs s ∧ Reaches allSchemas b x)
    (fun props => ∀ nd x, x ∈ collectFromProps visit props nd →
      x ∈ nd ∨ ∃ b, b ∈ propsRefs props ∧ Reaches allSchemas b x)
  · intro i t f d props items addProps rf df en rq ro an hp hit hap nd x hx
    rw [collectFromSchema_eq, collectFromParts_decompose] at hx
    have step1 : ∀ y, y ∈ (if rf ≠ "" then visit rf nd else nd) →
        y ∈ nd ∨ ∃ b, b ∈ nodeRefs (Schema.mk i t f d props items addProps rf df en rq ro an) ∧
          Reaches allSchemas b y := by
      intro y hy
      split at hy
      · rcases hv rf nd y hy with h | h
        · exact .inl h
        · refine .inr ⟨rf, ?_, h⟩
          rw [nodeRefs_mk]
          simp_all
      · exact .inl hy
    have step2 : ∀ y, y ∈ collectFromProps visit props (if rf ≠ "" then visit rf nd else nd) →
        y ∈ nd ∨ ∃ b, b ∈ nodeRefs (Schema.mk i t f d props items addProps rf df en rq ro an) ∧
          Reaches allSchemas b y := by
      intro y hy
      rcases hp _ y hy with h | ⟨b, hb, hr⟩
      · exact step1 y h
      · refine .inr ⟨b, ?_, hr⟩
        rw [nodeRefs_mk]
        simp only [List.append_assoc, List.mem_append]
        exact .inr (.inl hb)
    cases items with
    | none =>
      cases addProps with
      | none => exact step2 x hx
      | some ap =>
        rcases hap ap rfl _ x hx with h | ⟨b, hb, hr⟩
        · exact step2 x h
        · refine .inr ⟨b, ?_, hr⟩
          rw [nodeRefs_mk]
          simp only [List.append_assoc, List.mem_append]
          exact .inr (.inr (.inr hb))
    | some it =>
      have step3 : ∀ y,
          y ∈ collectFromSchema visit it
            (collectFromProps visit props (if rf ≠ "" then visit rf nd else nd)) →
          y ∈ nd ∨ ∃ b,
            b ∈ nodeRefs (Schema.mk i t f d props (some it) addProps rf df en rq ro an) ∧
            Reaches allSchemas b y := by
        intro y hy
        rcases hit it rfl _ y hy with h | ⟨b, hb, hr⟩
        · exact step2 y h
        · refine .inr ⟨b, ?_, hr⟩
          rw [nodeRefs_mk]
          simp only [List.append_assoc, List.mem_append]
          exact .inr (.inr (.inl hb))
      cases addProps with
      | none => exact step3 x hx
      | some ap =>
        rcases hap ap rfl _ x hx with h | ⟨b, hb, hr⟩
        · exact step3 x h
        · refine .inr ⟨b, ?_, hr⟩
          rw [nodeRefs_mk]
          simp only [List.append_assoc, List.mem_append]
          exact .inr (.inr (.inr hb))
  · intro nd x hx
    exact .inl hx
  · intro n s rest hs hrest nd x hx
    rw [collectFromProps] at hx
    rcases hrest _ x hx with h | ⟨b, hb, hr⟩
    · rcases hs nd x h with h2 | ⟨b, hb, hr⟩
      · exact .inl h2
      · exact .inr ⟨b, mem_propsRefs_cons_head hb, hr⟩
    · exact .inr ⟨b, mem_propsRefs_cons_tail hb, hr⟩

theorem collectFromParts_sound_schema (allSchemas : List (String × Schema))
    (visit : String → List String → List String)
    (hv : ∀ n nd x, x ∈ visit n nd → x ∈ nd ∨ Reaches allSchemas n x)
    (s : Schema) (nd : List String) (x : String)
    (hx : x ∈ collectFromParts visit s.properties s.items s.additionalProperties nd) :
    x ∈ nd ∨ ∃ b, b ∈ topRefs s ∧ Reaches allSchemas b x := by
  cases s with
  | mk i t f d props items addProps rf df en rq ro an =>
    simp only [Schema.properties, Schema.items, Schema.additionalProperties] at hx
    rw [collectFromParts_decompose] at hx
    have step2 : ∀ y, y ∈ collectFromProps visit props nd →
        y ∈ nd ∨ ∃ b, b ∈ topRefs (Schema.mk i t f d props items addProps rf df en rq ro an) ∧
          Reaches allSchemas b y := by
      intro y hy
      rcases (collectWalk_sound allSchemas visit hv).2 props nd y hy with h | ⟨b, hb, hr⟩
      · exact .inl h
      · refine .inr ⟨b, ?_, hr⟩
        rw [topRefs_mk]
        simp only [List.append_assoc, List.mem_append]
        exact .inl hb
    cases items with
    | none =>
      cases addProps with
      | none => exact step2 x hx
      | some ap =>
        rcases (collectWalk_sound allSchemas visit hv).1 ap _ x hx with h | ⟨b, hb, hr⟩
        · exact step2 x h
        · refine .inr ⟨b, ?_, hr⟩
          rw [topRefs_mk]
          simp only [List.append_assoc, List.mem_append]
          exact .inr (.inr hb)
    | some it =>
      have step3 : ∀ y, y ∈ collectFromSchema visit it (collectFromProps visit props nd) →
          y ∈ nd ∨ ∃ b,
            b ∈ topRefs (Schema.mk i t f d props (some it) addProps rf df en rq ro an) ∧
            Reaches allSchemas b y := by
        intro y hy
        rcases (collectWalk_sound allSchemas visit hv).1 it _ y hy with h | ⟨b, hb, hr⟩
        · exact step2 y h
        · refine .inr ⟨b, ?_, hr⟩
          rw [topRefs_mk]
          simp only [List.append_assoc, List.mem_append]
          exact .inr (.inl hb)
      cases addProps with
      | none => exact step3 x hx
      | some ap =>
        rcases (collectWalk_sound allSchemas visit hv).1 ap _ x hx with h | ⟨b, hb, hr⟩
        · exact step3 x h
        · refine .inr ⟨b, ?_, hr⟩
          rw [topRefs_mk]
          simp only [List.append_assoc, List.mem_append]
          exact .inr (.inr hb)

theorem collectSchemaRefsF_sound (allSchemas : List (String × Schema)) :
    ∀ (fuel : Nat) (n : String) (nd : List String) (x : String),
      x ∈ collectSchemaRefsF allSchemas fuel n nd → x ∈ nd ∨ Reaches allSchemas n x := by
  intro fuel
  induction fuel with
  | zero => intro n nd x hx; exact .inl hx
  | succ fuel ih =>
    intro n nd x hx
    rw [collectSchemaRefsF] at hx
    by_cases hmem : n ∈ nd
    · rw [if_pos hmem] at hx
      exact .inl hx
    · rw [if_neg hmem] at hx
      cases hl : lookupName allSchemas n with
      | none =>
        rw [hl] at hx
        exact .inl hx
      | some schema =>
        rw [hl] at hx
        rcases collectFromParts_sound_schema allSchemas _ (fun n' nd' x' hx' => ih n' nd' x' hx')
          schema (n :: nd) x hx with h | ⟨b, hb, hr⟩
        · rcases List.mem_cons.mp h with h | h
          · subst h
            exact .inr (Reaches.refl x)
          · exact .inl h
        · exact .inr (Reaches.step schema b hl hb hr)

/-! ### Closure: collected sets are saturated under resolvable references -/

theorem ClosedExt_refl (allSchemas : List (String × Schema)) (nd : List String) :
    ClosedExt allSchemas nd nd := fun _ _ _ hy hny => (hny hy).elim

theorem ClosedExt_trans' {allSchemas : List (String × Schema)} {nd r1 r2 : List String}
    (hsub : ∀ x ∈ r1, x ∈ r2) (h1 : ClosedExt allSchemas nd r1)
    (h2 : ClosedExt allSchemas r1 r2) : ClosedExt allSchemas nd r2 := by
  intro y s b hy hny hl hb hbl
  by_cases hy1 : y ∈ r1
  · exact hsub b (h1 y s b hy1 hny hl hb hbl)
  · exact h2 y s b hy hy1 hl hb hbl

theorem collectWalk_closed (allSchemas : List (String × Schema))
    (visit : String → List String → List String) (u : Nat)
    (hvA : ∀ n nd, AddsOK allSchemas nd (visit n nd))
    (hvE2 : ∀ n nd, unvisited allSchemas nd ≤ u → (lookupName allSchemas n).isSome = true →
      n ∈ visit n nd)
    (hvCl : ∀ n nd, unvisited allSchemas nd ≤ u → ClosedExt allSchemas nd (visit n nd)) :
    (∀ s nd, unvisited allSchemas nd ≤ u →
      ClosedExt allSchemas nd (collectFromSchema visit s nd) ∧
      (∀ r, r ∈ nodeRefs s → (lookupName allSchemas r).isSome = true →
        r ∈ collectFromSchema visit s nd)) ∧
    (∀ props nd, unvisited allSchemas nd ≤ u →
      ClosedExt allSchemas nd (collectFromProps visit props nd) ∧
      (∀ r, r ∈ propsRefs props → (lookupName allSchemas r).isSome = true →
        r ∈ collectFromProps visit props nd)) := by
  apply schema_mutual_induction
    (fun s => ∀ nd, unvisited allSchemas nd ≤ u →
      ClosedExt allSchemas nd (collectFromSchema visit s nd) ∧
      (∀ r, r ∈ nodeRefs s → (lookupName allSchemas r).isSome = true →
        r ∈ collectFromSchema visit s nd))
    (fun props => ∀ nd, unvisited allSchemas nd ≤ u →
      ClosedExt allSchemas nd (collectFromProps visit props nd) ∧
      (∀ r, r ∈ propsRefs props → (lookupName allSchemas r).isSome = true →
        r ∈ collectFromProps visit props nd))
  · intro i t f d props items addProps rf df en rq ro an hp hit hap nd hnd
    have a1 : AddsOK allSchemas nd (if rf ≠ "" then visit rf nd else nd) := by
      split
      · exact hvA rf nd
      · exact AddsOK_refl _ _
    have u1 := le_trans (unvisited_mono allSchemas a1) hnd
    have c1 : ClosedExt allSchemas nd (if rf ≠ "" then visit rf nd else nd) := by
      split
      · exact hvCl rf nd hnd
      · exact ClosedExt_refl _ _
    obtain ⟨cp, rp⟩ := hp (if rf ≠ "" then visit rf nd else nd) u1
    have a2 := (collectWalk_addsOK allSchemas visit hvA).2 props
      (if rf ≠ "" then visit rf nd else nd)
    have u2 := le_trans (unvisited_mono allSchemas a2) u1
    have hown : ∀ r, r ∈ (if rf ≠ "" then [rf] else []) →
        (lookupName allSchemas r).isSome = true →
        r ∈ collectFromProps visit props (if rf ≠ "" then visit rf nd else nd) := by
      intro r hr hrs
      by_cases hne : rf = ""
      · rw [if_neg (by simp [hne])] at hr
        cases hr
      · rw [if_pos hne] at hr
        rw [List.mem_singleton] at hr
        subst hr
        refine AddsOK_sub a2 _ ?_
        rw [if_pos hne]
        exact hvE2 r nd hnd hrs
    rw [collectFromSchema_eq, collectFromParts_decompose]
    cases items with
    | none =>
      cases addProps with
      | none =>
        refine ⟨ClosedExt_trans' (AddsOK_sub a2) c1 cp, ?_⟩
        intro r hr hrs
        rw [nodeRefs_mk] at hr
        simp only [List.append_assoc, List.mem_append] at hr
        rcases hr with hr | hr | hr | hr
        · exact hown r hr hrs
        · exact rp r hr hrs
        · cases hr
        · cases hr
      | some ap =>
        obtain ⟨ca, ra⟩ := hap ap rfl _ u2
        have a4 := (collectWalk_addsOK allSchemas visit hvA).1 ap
          (collectFromProps visit props (if rf ≠ "" then visit rf nd else nd))
        refine ⟨ClosedExt_trans' (AddsOK_sub a4)
          (ClosedExt_trans' (AddsOK_sub a2) c1 cp) ca, ?_⟩
        intro r hr hrs
        rw [nodeRefs_mk] at hr
        simp only [List.append_assoc, List.mem_append] at hr
        rcases hr with hr | hr | hr | hr
        · exact AddsOK_sub a4 _ (hown r hr hrs)
        · exact AddsOK_sub a4 _ (rp r hr hrs)
        · cases hr
        · exact ra r hr hrs
    | some it =>
      obtain ⟨ci, ri⟩ := hit it rfl _ u2
      have a3 := (collectWalk_addsOK allSchemas visit hvA).1 it
        (collectFromProps visit props (if rf ≠ "" then visit rf nd else nd))
      have u3 := le_trans (unvisited_mono allSchemas a3) u2
      cases addProps with
      | none =>
        refine ⟨ClosedExt_trans' (AddsOK_sub a3)
          (ClosedExt_trans' (AddsOK_sub a2) c1 cp) ci, ?_⟩
        intro r hr hrs
        rw [nodeRefs_mk] at hr
        simp only [List.append_assoc, List.mem_append] at hr
        rcases hr with hr | hr | hr | hr
        · exact AddsOK_sub a3 _ (hown r hr hrs)
        · exact AddsOK_sub a3 _ (rp r hr hrs)
        · exact ri r hr hrs
        · cases hr
      | some ap =>
        obtain ⟨ca, ra⟩ := hap ap rfl _ u3
        have a4 := (collectWalk_addsOK allSchemas visit hvA).1 ap
          (collectFromSchema visit it
            (collectFromProps visit props (if rf ≠ "" then visit rf nd else nd)))
        refine ⟨ClosedExt_trans' (AddsOK_sub a4)
          (ClosedExt_trans' (AddsOK_sub a3)
            (ClosedExt_trans' (AddsOK_sub a2) c1 cp) ci) ca, ?_⟩
        intro r hr hrs
        rw [nodeRefs_mk] at hr
        simp only [List.append_assoc, List.mem_append] at hr
        rcases hr with hr | hr | hr | hr
        · exact AddsOK_sub a4 _ (AddsOK_sub a3 _ (hown r hr hrs))
        · exact AddsOK_sub a4 _ (AddsOK_sub a3 _ (rp r hr hrs))
        · exact AddsOK_sub a4 _ (ri r hr hrs)
        · exact ra r hr hrs
  · intro nd _
    refine ⟨ClosedExt_refl _ _, ?_⟩
    intro r hr
    rw [propsRefs] at hr
    cases hr
  · intro n s rest hs hrest nd hnd
    obtain ⟨cs, rs⟩ := hs nd hnd
    have a1 := (collectWalk_addsOK allSchemas visit hvA).1 s nd
    have u1 := le_trans (unvisited_mono allSchemas a1) hnd
    obtain ⟨cr, rr⟩ := hrest (collectFromSchema visit s nd) u1
    have a2 := (collectWalk_addsOK allSchemas visit hvA).2 rest (collectFromSchema visit s nd)
    rw [collectFromProps]
    refine ⟨ClosedExt_trans' (AddsOK_sub a2) cs cr, ?_⟩
    intro r hr hrs
    rw [propsRefs] at hr
    rcases List.mem_append.mp hr with hr | hr
    · exact AddsOK_sub a2 _ (rs r hr hrs)
    · exact rr r hr hrs

theorem collectFromParts_closed (allSchemas : List (String × Schema))
    (visit : String → List String → List String) (u : Nat)
    (hvA : ∀ n nd, AddsOK allSchemas nd (visit n nd))
    (hvE2 : ∀ n nd, unvisited allSchemas nd ≤ u → (lookupName allSchemas n).isSome = true →
      n ∈ visit n nd)
    (hvCl : ∀ n nd, unvisited allSchemas nd ≤ u → ClosedExt allSchemas nd (visit n nd))
    (s : Schema) (nd : List String) (hnd : unvisited allSchemas nd ≤ u) :
    ClosedExt allSchemas nd
      (collectFromParts visit s.properties s.items s.additionalProperties nd) ∧
    (∀ r, r ∈ topRefs s → (lookupName allSchemas r).isSome = true →
      r ∈ collectFromParts visit s.properties s.items s.additionalProperties nd) := by
  cases s with
  | mk i t f d props items addProps rf df en rq ro an =>
    obtain ⟨cp, rp⟩ := (collectWalk_closed allSchemas visit u hvA hvE2 hvCl).2 props nd hnd
    have a2 := (collectWalk_addsOK allSchemas visit hvA).2 props nd
    have u2 := le_trans (unvisited_mono allSchemas a2) hnd
    simp only [Schema.properties, Schema.items, Schema.additionalProperties]
    rw [collectFromParts_decompose]
    cases items with
    | none =>
      cases addProps with
      | none =>
        refine ⟨cp, ?_⟩
        intro r hr hrs
        rw [topRefs_mk] at hr
        simp only [List.append_assoc, List.mem_append] at hr
        rcases hr with hr | hr | hr
        · exact rp r hr hrs
        · cases hr
        · cases hr
      | some ap =>
        obtain ⟨ca, ra⟩ := (collectWalk_closed allSchemas visit u hvA hvE2 hvCl).1 ap _ u2
        have a4 := (collectWalk_addsOK allSchemas visit hvA).1 ap (collectFromProps visit props nd)
        refine ⟨ClosedExt_trans' (AddsOK_sub a4) cp ca, ?_⟩
        intro r hr hrs
        rw [topRefs_mk] at hr
        simp only [List.append_assoc, List.mem_append] at hr
        rcases hr with hr | hr | hr
        · exact AddsOK_sub a4 _ (rp r hr hrs)
        · cases hr
        · exact ra r hr hrs
    | some it =>
      obtain ⟨ci, ri⟩ := (collectWalk_closed allSchemas visit u hvA hvE2 hvCl).1 it _ u2
      have a3 := (collectWalk_addsOK allSchemas visit hvA).1 it (collectFromProps visit props nd)
      have u3 := le_trans (unvisited_mono allSchemas a3) u2
      cases addProps with
      | none =>
        refine ⟨ClosedExt_trans' (AddsOK_sub a3) cp ci, ?_⟩
        intro r hr hrs
        rw [topRefs_mk] at hr
        simp only [List.append_assoc, List.mem_append] at hr
        rcases hr with hr | hr | hr
        · exact AddsOK_sub a3 _ (rp r hr hrs)
        · exact ri r hr hrs
        · cases hr
      | some ap =>
        obtain ⟨ca, ra⟩ := (collectWalk_closed allSchemas visit u hvA hvE2 hvCl).1 ap _ u3
        have a4 := (collectWalk_addsOK allSchemas visit hvA).1 ap
          (collectFromSchema visit it (collectFromProps visit props nd))
        refine ⟨ClosedExt_trans' (AddsOK_sub a4)
          (ClosedExt_trans' (AddsOK_sub a3) cp ci) ca, ?_⟩
        intro r hr hrs
        rw [topRefs_mk] at hr
        simp only [List.append_assoc, List.mem_append] at hr
        rcases hr with hr | hr | hr
        · exact AddsOK_sub a4 _ (AddsOK_sub a3 _ (rp r hr hrs))
        · exact AddsOK_sub a4 _ (ri r hr hrs)
        · exact ra r hr hrs

theorem collectSchemaRefsF_closed (allSchemas : List (String × Schema)) :
    ∀ (u : Nat) (nd : List String) (n : String) (fuel : Nat),
      unvisited allSchemas nd ≤ u → u < fuel →
      ClosedExt allSchemas nd (collectSchemaRefsF allSchemas fuel n nd) ∧
      ((lookupName allSchemas n).isSome = true →
        n ∈ collectSchemaRefsF allSchemas fuel n nd) := by
  intro u
  induction u using Nat.strong_induction_on with
  | _ u ih =>
    intro nd n fuel hnd hfu
    obtain ⟨g, rfl⟩ : ∃ g, fuel = g + 1 := ⟨fuel - 1, by omega⟩
    rw [collectSchemaRefsF]
    by_cases hmem : n ∈ nd
    · rw [if_pos hmem]
      exact ⟨ClosedExt_refl _ _, fun _ => hmem⟩
    · rw [if_neg hmem]
      cases hl : lookupName allSchemas n with
      | none =>
        refine ⟨ClosedExt_refl _ _, fun hs => ?_⟩
        simp at hs
      | some schema =>
        have hk := lookupName_mem_keys hl
        have hcons := unvisited_cons allSchemas hk hmem
        have hu1 : 1 ≤ u := by omega
        have hvE2 : ∀ n' nd', unvisited allSchemas nd' ≤ u - 1 →
            (lookupName allSchemas n').isSome = true →
            n' ∈ collectSchemaRefsF allSchemas g n' nd' :=
          fun n' nd' h' hs' => (ih (u - 1) (by omega) nd' n' g h' (by omega)).2 hs'
        have hvCl : ∀ n' nd', unvisited allSchemas nd' ≤ u - 1 →
            ClosedExt allSchemas nd' (collectSchemaRefsF allSchemas g n' nd') :=
          fun n' nd' h' => (ih (u - 1) (by omega) nd' n' g h' (by omega)).1
        have hvA := fun n' nd' => collectSchemaRefsF_addsOK allSchemas g n' nd'
        have hcnd : unvisited allSchemas (n :: nd) ≤ u - 1 := by omega
        obtain ⟨cpart, rpart⟩ := collectFromParts_closed allSchemas _ (u - 1) hvA hvE2 hvCl
          schema (n :: nd) hcnd
        have apart := collectFromParts_addsOK allSchemas _ hvA schema.properties schema.items
          schema.additionalProperties (n :: nd)
        constructor
        · intro y s' b hy hny hl' hb hbl
          by_cases hyn : y = n
          · subst hyn
            rw [hl] at hl'
            injection hl' with hl'
            subst hl'
            exact rpart b hb hbl
          · have hyn2 : y ∉ n :: nd := by
              intro hc
              rcases List.mem_cons.mp hc with hc | hc
              · exact hyn hc
              · exact hny hc
            exact cpart y s' b hy hyn2 hl' hb hbl
        · intro _
          exact AddsOK_sub apart n (List.mem_cons_self n nd)

/-! ### Lifting to `collectSchemaRefs`, `collectNeeded` and `collectSchemas` -/

theorem collectSchemaRefs_addsOK (n : String) (allSchemas : List (String × Schema))
    (nd : List String) : AddsOK allSchemas nd (collectSchemaRefs n allSchemas nd) := by
  rw [collectSchemaRefs]
  exact collectSchemaRefsF_addsOK allSchemas _ n nd

theorem collectSchemaRefs_sound (n : String) (allSchemas : List (String × Schema))
    (nd : List String) (x : String) (hx : x ∈ collectSchemaRefs n allSchemas nd) :
    x ∈ nd ∨ Reaches allSchemas n x := by
  rw [collectSchemaRefs] at hx
  exact collectSchemaRefsF_sound allSchemas _ n nd x hx

theorem collectSchemaRefs_closed (n : String) (allSchemas : List (String × Schema))
    (nd : List String) :
    ClosedExt allSchemas nd (collectSchemaRefs n allSchemas nd) ∧
    ((lookupName allSchemas n).isSome = true → n ∈ collectSchemaRefs n allSchemas nd) := by
  rw [collectSchemaRefs]
  exact collectSchemaRefsF_closed allSchemas (unvisited allSchemas nd) nd n _ le_rfl
    (by have := unvisited_le_length allSchemas nd; omega)

theorem collectFromRef_addsOK (allSchemas : List (String × Schema)) (oref : Option SchemaRef)
    (nd : List String) : AddsOK allSchemas nd (collectFromRef allSchemas oref nd) := by
  cases oref with
  | none => exact AddsOK_refl _ _
  | some r =>
    rw [collectFromRef]
    split
    · exact collectSchemaRefs_addsOK _ _ _
    · exact AddsOK_refl _ _

theorem collectFromRef_closed (allSchemas : List (String × Schema)) (oref : Option SchemaRef)
    (nd : List String) : ClosedExt allSchemas nd (collectFromRef allSchemas oref nd) := by
  cases oref with
  | none => exact ClosedExt_refl _ _
  | some r =>
    rw [collectFromRef]
    split
    · exact (collectSchemaRefs_closed _ _ _).1
    · exact ClosedExt_refl _ _

theorem collectFromRef_entry (allSchemas : List (String × Schema)) (oref : Option SchemaRef)
    (nd : List String) (e : String) (he : e ∈ refNames oref)
    (hes : (lookupName allSchemas e).isSome = true) :
    e ∈ collectFromRef allSchemas oref nd := by
  cases oref with
  | none => cases he
  | some r =>
    rw [refNames] at he
    rw [collectFromRef]
    by_cases hne : r.ref = ""
    · rw [if_neg (by simp [hne])] at he
      cases he
    · rw [if_pos hne] at he
      rw [List.mem_singleton] at he
      subst he
      rw [if_pos hne]
      exact (collectSchemaRefs_closed _ _ _).2 hes

theorem collectFromRef_sound (allSchemas : List (String × Schema)) (oref : Option SchemaRef)
    (nd : List String) (x : String) (hx : x ∈ collectFromRef allSchemas oref nd) :
    x ∈ nd ∨ ∃ e, e ∈ refNames oref ∧ Reaches allSchemas e x := by
  cases oref with
  | none => exact .inl hx
  | some r =>
    rw [collectFromRef] at hx
    rw [refNames]
    by_cases hne : r.ref = ""
    · rw [if_neg (by simp [hne])] at hx
      exact .inl hx
    · rw [if_pos hne] at hx
      rcases collectSchemaRefs_sound _ _ _ _ hx with h | h
      · exact .inl h
      · refine .inr ⟨r.ref, ?_, h⟩
        rw [if_pos hne]
        exact List.mem_singleton.mpr rfl

theorem collectNeeded_addsOK (allSchemas : List (String × Schema)) (ms : List MethodInfo) :
    ∀ nd, AddsOK allSchemas nd (collectNeeded allSchemas ms nd) := by
  induction ms with
  | nil =>
    intro nd
    rw [collectNeeded]
    exact AddsOK_refl _ _
  | cons m rest ih =>
    intro nd
    rw [collectNeeded]
    exact AddsOK_trans
      (AddsOK_trans (collectFromRef_addsOK allSchemas m.method.request nd)
        (collectFromRef_addsOK allSchemas m.method.response _)) (ih _)

theorem collectNeeded_closed (allSchemas : List (String × Schema)) (ms : List MethodInfo) :
    ∀ nd, ClosedExt allSchemas nd (collectNeeded allSchemas ms nd) := by
  induction ms with
  | nil =>
    intro nd
    rw [collectNeeded]
    exact ClosedExt_refl _ _
  | cons m rest ih =>
    intro nd
    rw [collectNeeded]
    exact ClosedExt_trans' (AddsOK_sub (collectNeeded_addsOK allSchemas rest _))
      (ClosedExt_trans' (AddsOK_sub (collectFromRef_addsOK allSchemas m.method.response _))
        (collectFromRef_closed allSchemas m.method.request nd)
        (collectFromRef_closed allSchemas m.method.response _)) (ih _)

theorem collectNeeded_entries (allSchemas : List (String × Schema)) (ms : List MethodInfo) :
    ∀ nd, ∀ e ∈ entryRefs ms, (lookupName allSchemas e).isSome = true →
      e ∈ collectNeeded allSchemas ms nd := by
  induction ms with
  | nil =>
    intro nd e he
    simp [entryRefs] at he
  | cons m rest ih =>
    intro nd e he hes
    rw [collectNeeded]
    rw [entryRefs, List.flatMap_cons, List.mem_append, List.mem_append] at he
    rcases he with (he | he) | he
    · exact AddsOK_sub (collectNeeded_addsOK allSchemas rest _) _
        (AddsOK_sub (collectFromRef_addsOK allSchemas m.method.response _) _
          (collectFromRef_entry allSchemas m.method.request nd e he hes))
    · exact AddsOK_sub (collectNeeded_addsOK allSchemas rest _) _
        (collectFromRef_entry allSchemas m.method.response _ e he hes)
    · exact ih _ e he hes

theorem collectNeeded_sound (allSchemas : List (String × Schema)) (ms : List MethodInfo) :
    ∀ nd x, x ∈ collectNeeded allSchemas ms nd →
      x ∈ nd ∨ ∃ e, e ∈ entryRefs ms ∧ Reaches allSchemas e x := by
  induction ms with
  | nil =>
    intro nd x hx
    rw [collectNeeded] at hx
    exact .inl hx
  | cons m rest ih =>
    intro nd x hx
    rw [collectNeeded] at hx
    have hmem : ∀ b l, b ∈ refNames (l : Option SchemaRef) →
        (l = m.method.request ∨ l = m.method.response) → b ∈ entryRefs (m :: rest) := by
      intro b l hb hl
      rw [entryRefs, List.flatMap_cons, List.mem_append, List.mem_append]
      rcases hl with hl | hl
      · exact .inl (.inl (hl ▸ hb))
      · exact .inl (.inr (hl ▸ hb))
    rcases ih _ x hx with hx2 | ⟨e, he, hr⟩
    · rcases collectFromRef_sound allSchemas m.method.response _ x hx2 with hx3 | ⟨e, he, hr⟩
      · rcases collectFromRef_sound allSchemas m.method.request _ x hx3 with hx4 | ⟨e, he, hr⟩
        · exact .inl hx4
        · exact .inr ⟨e, hmem e _ he (.inl rfl), hr⟩
      · exact .inr ⟨e, hmem e _ he (.inr rfl), hr⟩
    · refine .inr ⟨e, ?_, hr⟩
      rw [entryRefs, List.flatMap_cons, List.mem_append]
      exact .inr he

theorem mem_schemaKeys_isSome {allSchemas : List (String × Schema)} {x : String}
    (h : x ∈ schemaKeys allSchemas) : (lookupName allSchemas x).isSome = true := by
  rw [schemaKeys, List.mem_dedup] at h
  induction allSchemas with
  | nil => simp at h
  | cons p rest ih =>
    obtain ⟨k, v⟩ := p
    by_cases hk : k = x
    · rw [lookupName, if_pos hk]
      rfl
    · rw [lookupName, if_neg hk]
      rw [List.map_cons, List.mem_cons] at h
      rcases h with h | h
      · exact absurd h.symm hk
      · exact ih h

theorem collectNeeded_mem_keys (allSchemas : List (String × Schema)) (ms : List MethodInfo)
    {x : String} (hx : x ∈ collectNeeded allSchemas ms []) : x ∈ schemaKeys allSchemas := by
  obtain ⟨new, e, p, _⟩ := collectNeeded_addsOK allSchemas ms []
  rw [e, List.append_nil] at hx
  exact (p x hx).1

theorem collectNeeded_nodup (allSchemas : List (String × Schema)) (ms : List MethodInfo) :
    (collectNeeded allSchemas ms []).Nodup := by
  obtain ⟨new, e, p, hn⟩ := collectNeeded_addsOK allSchemas ms []
  exact hn List.nodup_nil

theorem reaches_mem_of_closed (allSchemas : List (String × Schema)) {F : List String}
    (hcl : ClosedExt allSchemas [] F) :
    ∀ a x, Reaches allSchemas a x → a ∈ F → (lookupName allSchemas x).isSome = true →
      x ∈ F := by
  intro a x hr
  induction hr with
  | refl a => exact fun ha _ => ha
  | step s b hl hb hrest ih =>
    intro ha hx
    have hbs : (lookupName allSchemas b).isSome = true := by
      cases hrest with
      | refl _ => exact hx
      | step s' b' hl' _ _ => rw [hl']; rfl
    exact ih (hcl _ s b ha (by simp) hl hb hbs) hx

/-- The complete characterization of the collected visited set: exactly the
resolvable names reachable from the selected methods' request/response
references. -/
theorem collectNeeded_char (allSchemas : List (String × Schema)) (ms : List MethodInfo)
    (x : String) :
    x ∈ collectNeeded allSchemas ms [] ↔
      ((lookupName allSchemas x).isSome = true ∧
        ∃ e, e ∈ entryRefs ms ∧ Reaches allSchemas e x) := by
  constructor
  · intro hx
    refine ⟨mem_schemaKeys_isSome (collectNeeded_mem_keys allSchemas ms hx), ?_⟩
    rcases collectNeeded_sound allSchemas ms [] x hx with h | h
    · cases h
    · exact h
  · rintro ⟨hs, e, he, hr⟩
    have hes : (lookupName allSchemas e).isSome = true := by
      cases hr with
      | refl _ => exact hs
      | step s b hl _ _ => rw [hl]; rfl
    exact reaches_mem_of_closed allSchemas (collectNeeded_closed allSchemas ms []) e x hr
      (collectNeeded_entries allSchemas ms [] e he hes) hs

theorem sortStrings_sorted (l : List String) :
    List.Sorted (fun a b => strLe a b = true) (sortStrings l) := by
  haveI : IsTotal String (fun a b => strLe a b = true) := ⟨strLe_total⟩
  haveI : IsTrans String (fun a b => strLe a b = true) := ⟨fun a b c => strLe_trans⟩
  exact List.sorted_insertionSort _ _

theorem sortStrings_perm (l : List String) : (sortStrings l).Perm l :=
  List.perm_insertionSort _ _

theorem filterMap_schemaInfo_names (allSchemas : List (String × Schema)) :
    ∀ names : List String, (∀ x ∈ names, (lookupName allSchemas x).isSome = true) →
      (names.filterMap (fun name => (lookupName allSchemas name).map
        (fun schema => NewSchemaInfo name schema allSchemas))).map SchemaInfo.name = names := by
  intro names
  induction names with
  | nil => intro _; rfl
  | cons n rest ih =>
    intro h
    have hn := h n (List.mem_cons_self n rest)
    obtain ⟨s, hs⟩ := Option.isSome_iff_exists.mp hn
    rw [List.filterMap_cons, hs, Option.map_some', List.map_cons]
    rw [ih (fun x hx => h x (List.mem_cons_of_mem n hx))]
    rfl

/-- The emitted dependency list is the sorted list of collected names. -/
theorem collectSchemas_map_name (ms : List MethodInfo) (allSchemas : List (String × Schema)) :
    (collectSchemas ms allSchemas).map SchemaInfo.name =
      sortStrings (collectNeeded allSchemas ms []) := by
  rw [collectSchemas]
  apply filterMap_schemaInfo_names
  intro x hx
  have hx2 := (sortStrings_perm _).mem_iff.mp hx
  exact mem_schemaKeys_isSome (collectNeeded_mem_keys allSchemas ms hx2)

/-! ### C4: unknown method names fail fast -/

theorem buildMethodInfos_error (allMethods : List (String × Method)) (pfx structPfx : String)
    (names : List String) (name : String) (hmem : name ∈ names)
    (hlook : lookupName allMethods name = none) :
    ∃ e, buildMethodInfos allMethods pfx structPfx names = .error e := by
  induction names with
  | nil => simp at hmem
  | cons n rest ih =>
    cases hn : lookupName allMethods n with
    | none => exact ⟨_, by rw [buildMethodInfos, hn]⟩
    | some m =>
      have hmem' : name ∈ rest := by
        rcases List.mem_cons.mp hmem with h | h
        · subst h
          rw [hlook] at hn
          cases hn
        · exact h
      obtain ⟨e, he⟩ := ih hmem'
      refine ⟨e, ?_⟩
      rw [buildMethodInfos, hn, he]
      rfl

/-- C4.  If the explicit method list contains a name absent from the
flattened method set, generation returns `("", some error)`; the result is
the same for every renderer, formatter and schema mapping, i.e. the failure
happens before any schema dependency collection, template rendering or
formatting, and no partial output is produced. -/
theorem generate_unknown_method_fails (doc : Document) (opts : GenerateOptions) (name : String)
    (hmem : name ∈ opts.methods)
    (hlook : lookupName doc.AllMethods name = none)
    (render render' : TemplateData → Except String String)
    (fmtSource fmtSource' : String → Except String String)
    (schemas' : List (String × Schema)) :
    (GenerateMCPTools doc opts render fmtSource).1 = "" ∧
    (GenerateMCPTools doc opts render fmtSource).2.isSome = true ∧
    GenerateMCPTools doc opts render fmtSource =
      GenerateMCPTools { doc with schemas := schemas' } opts render' fmtSource' := by
  have hne : opts.methods.isEmpty = false := by
    cases hms : opts.methods with
    | nil =>
      rw [hms] at hmem
      simp at hmem
    | cons a l => rfl
  have hnames : effectiveMethodNames doc opts = opts.methods := by
    rw [effectiveMethodNames, hne]
    rfl
  have hall : Document.AllMethods { doc with schemas := schemas' } = doc.AllMethods := rfl
  have hnames' : effectiveMethodNames { doc with schemas := schemas' } opts = opts.methods := by
    rw [effectiveMethodNames, hne]
    rfl
  obtain ⟨e, he⟩ := buildMethodInfos_error doc.AllMethods (effectivePfx doc opts)
    (effectiveStructPfx opts) opts.methods name hmem hlook
  have hres : GenerateMCPTools doc opts render fmtSource = ("", some e) := by
    rw [GenerateMCPTools, hnames, he]
  have hpfx : effectivePfx { doc with schemas := schemas' } opts = effectivePfx doc opts := rfl
  obtain ⟨e', he'⟩ := buildMethodInfos_error doc.AllMethods (effectivePfx doc opts)
    (effectiveStructPfx opts) opts.methods name hmem hlook
  have hres' : GenerateMCPTools { doc with schemas := schemas' } opts render' fmtSource' =
      ("", some e') := by
    rw [GenerateMCPTools, hnames', hall, hpfx, he']
  rw [he'] at he
  cases he
  rw [hres, hres']
  exact ⟨rfl, rfl, rfl⟩

/-- C4 witness: requesting the unknown operation `missing` on an empty
document fails with empty output and an error, independently of renderer,
formatter and schemas. -/
theorem generate_unknown_method_fails_witness :
    (GenerateMCPTools ⟨"", "", "", "", [], [], [], [], []⟩
        ⟨"", ["missing"], "", "", true⟩ (fun _ => .ok "x") (fun s => .ok s)).1 = "" ∧
    (GenerateMCPTools ⟨"", "", "", "", [], [], [], [], []⟩
        ⟨"", ["missing"], "", "", true⟩ (fun _ => .ok "x") (fun s => .ok s)).2.isSome = true := by
  have h := generate_unknown_method_fails ⟨"", "", "", "", [], [], [], [], []⟩
    ⟨"", ["missing"], "", "", true⟩ "missing" (by simp) rfl
    (fun _ => .ok "x") (fun _ => .ok "x") (fun s => .ok s) (fun s => .ok s) []
  exact ⟨h.1, h.2.1⟩

/-! ### C8: the two failure modes of generation -/

/-- C8.  When all requested methods resolve, generation has exactly the
following behaviours: a template rendering failure is fatal (empty output
plus error); a formatter failure after successful rendering returns the
complete unformatted rendered text together with a descriptive error; and
when both succeed the formatted text is returned with no error. -/
theorem generate_failure_modes (doc : Document) (opts : GenerateOptions)
    (ms : List MethodInfo) (render : TemplateData → Except String String)
    (fmtSource : String → Except String String)
    (hok : buildMethodInfos doc.AllMethods (effectivePfx doc opts) (effectiveStructPfx opts)
      (effectiveMethodNames doc opts) = .ok ms) :
    (∀ e, render (mkTemplateData doc opts ms) = .error e →
      GenerateMCPTools doc opts render fmtSource =
        ("", some ("template execution failed: " ++ e))) ∧
    (∀ txt e, render (mkTemplateData doc opts ms) = .ok txt → fmtSource txt = .error e →
      GenerateMCPTools doc opts render fmtSource =
        (txt, some ("generated code has syntax errors: " ++ e))) ∧
    (∀ txt out, render (mkTemplateData doc opts ms) = .ok txt → fmtSource txt = .ok out →
      GenerateMCPTools doc opts render fmtSource = (out, none)) := by
  refine ⟨fun e he => ?_, fun txt e hr hf => ?_, fun txt out hr hf => ?_⟩
  · rw [GenerateMCPTools, hok]
    dsimp only
    rw [he]
  · rw [GenerateMCPTools, hok]
    dsimp only
    rw [hr]
    dsimp only
    rw [hf]
  · rw [GenerateMCPTools, hok]
    dsimp only
    rw [hr]
    dsimp only
    rw [hf]

/-- C8 witness: on an empty document, a failing renderer aborts with empty
output; a failing formatter returns the rendered text with an error; and
success returns the formatted text with no error. -/
theorem generate_failure_modes_witness :
    GenerateMCPTools ⟨"", "", "", "", [], [], [], [], []⟩ ⟨"", [], "", "", false⟩
        (fun _ => .error "boom") (fun s => .ok s) =
      ("", some ("template execution failed: " ++ "boom")) ∧
    GenerateMCPTools ⟨"", "", "", "", [], [], [], [], []⟩ ⟨"", [], "", "", false⟩
        (fun _ => .ok "raw code") (fun _ => .error "bad syntax") =
      ("raw code", some ("generated code has syntax errors: " ++ "bad syntax")) ∧
    GenerateMCPTools ⟨"", "", "", "", [], [], [], [], []⟩ ⟨"", [], "", "", false⟩
        (fun _ => .ok "raw code") (fun _ => .ok "formatted code") =
      ("formatted code", none) := by
  refine ⟨?_, ?_, ?_⟩
  · exact (generate_failure_modes ⟨"", "", "", "", [], [], [], [], []⟩ ⟨"", [], "", "", false⟩
      [] (fun _ => .error "boom") (fun s => .ok s) rfl).1 "boom" rfl
  · exact (generate_failure_modes ⟨"", "", "", "", [], [], [], [], []⟩ ⟨"", [], "", "", false⟩
      [] (fun _ => .ok "raw code") (fun _ => .error "bad syntax") rfl).2.1
      "raw code" "bad syntax" rfl rfl
  · exact (generate_failure_modes ⟨"", "", "", "", [], [], [], [], []⟩ ⟨"", [], "", "", false⟩
      [] (fun _ => .ok "raw code") (fun _ => .ok "formatted code") rfl).2.2
      "raw code" "formatted code" rfl rfl

/-! ### C2: cycle-safe termination and exactly-once collection -/

/-- C2.  Dependency collection over any finite schema mapping — cyclic
reference graphs included — terminates: the recursion depth
`allSchemas.length + 1` already computes the fixed point, and any further
fuel leaves the result unchanged.  Each collected name appears exactly once
in the output (duplicate-freedom is preserved), and a name already in the
visited/needed set is never recursed into again: collecting it is a no-op. -/
theorem cyclic_collection_terminates_exactly_once
    (allSchemas : List (String × Schema)) (n : String) (s : Schema)
    (nd : List String) (hnd : nd.Nodup) :
    (∀ extra : Nat,
      collectSchemaRefsF allSchemas (allSchemas.length + 1 + extra) n nd =
        collectSchemaRefs n allSchemas nd) ∧
    (collectSchemaRefs n allSchemas nd).Nodup ∧
    (n ∈ nd → collectSchemaRefs n allSchemas nd = nd) ∧
    (collectSchemaRefsFromSchema s allSchemas nd).Nodup := by
  refine ⟨collectSchemaRefs_fuel_stable allSchemas n nd, ?_, ?_, ?_⟩
  · obtain ⟨new, he, hp, hdup⟩ := collectSchemaRefs_addsOK n allSchemas nd
    exact hdup hnd
  · intro hmem
    rw [collectSchemaRefs, collectSchemaRefsF, if_pos hmem]
  · rw [collectSchemaRefsFromSchema]
    obtain ⟨new, he, hp, hdup⟩ := (collectWalk_addsOK allSchemas _
      (fun n' nd' => collectSchemaRefs_addsOK n' allSchemas nd')).1 s nd
    exact hdup hnd

/-- C2 witness: on the cyclic two-schema mapping A → B → A, collection from
`A` terminates with each of `A`, `B` exactly once, extra fuel changes
nothing, and re-collecting an already-visited name is a no-op. -/
theorem cyclic_collection_terminates_exactly_once_witness :
    (collectSchemaRefsF cycleSchemas (cycleSchemas.length + 1 + 5) "A" [] =
      collectSchemaRefs "A" cycleSchemas []) ∧
    (collectSchemaRefs "A" cycleSchemas []).Nodup ∧
    (collectSchemaRefs "A" cycleSchemas ["A"] = ["A"]) ∧
    (collectSchemaRefsFromSchema (refOnly "A") cycleSchemas []).Nodup := by
  obtain ⟨h1, h2, -, h4⟩ := cyclic_collection_terminates_exactly_once cycleSchemas "A"
    (refOnly "A") [] List.nodup_nil
  obtain ⟨-, -, h3, -⟩ := cyclic_collection_terminates_exactly_once cycleSchemas "A"
    (refOnly "A") ["A"] (List.nodup_singleton "A")
  exact ⟨h1 5, h2, h3 (List.mem_singleton.mpr rfl), h4⟩

/-! ### C3: the dependency list is exactly the reachable set, sorted by name -/

/-- C3.  The names of the emitted dependency list are exactly the schema
names that resolve in the mapping and are transitively reachable — through
object properties, array item schemas, map additional-properties schemas and
nested references (`topRefs`/`Reaches`) — from the selected methods' request
and response references; unreferenced schemas are excluded.  The list is
sorted in lexicographic (byte-order) name order. -/
theorem dependency_list_reachable_and_sorted (ms : List MethodInfo)
    (allSchemas : List (String × Schema)) :
    (∀ x, x ∈ (collectSchemas ms allSchemas).map SchemaInfo.name ↔
      ((lookupName allSchemas x).isSome = true ∧
        ∃ e, e ∈ entryRefs ms ∧ Reaches allSchemas e x)) ∧
    List.Sorted (fun a b => strLe a b = true)
      ((collectSchemas ms allSchemas).map SchemaInfo.name) := by
  constructor
  · intro x
    rw [collectSchemas_map_name, (sortStrings_perm _).mem_iff]
    exact collectNeeded_char allSchemas ms x
  · rw [collectSchemas_map_name]
    exact sortStrings_sorted _

/-! ### C5: dangling references are skipped silently -/

/-- C5.  A reference whose target name is absent from the schema mapping is
skipped without any error: collecting it leaves the needed set unchanged, the
dangling name never appears in the collected set or the emitted dependency
list, and a schema carrying such a dangling `$ref` collects exactly what the
same schema with no `$ref` collects — the rest of the set is unaffected. -/
theorem dangling_reference_skipped (allSchemas : List (String × Schema)) (name : String)
    (hn : lookupName allSchemas name = none) :
    (∀ nd, collectSchemaRefs name allSchemas nd = nd) ∧
    (∀ ms : List MethodInfo, name ∉ collectNeeded allSchemas ms []) ∧
    (∀ ms : List MethodInfo, name ∉ (collectSchemas ms allSchemas).map SchemaInfo.name) ∧
    (∀ i t f d props items addProps df en rq ro an nd,
      collectSchemaRefsFromSchema (.mk i t f d props items addProps name df en rq ro an)
          allSchemas nd =
        collectSchemaRefsFromSchema (.mk i t f d props items addProps "" df en rq ro an)
          allSchemas nd) := by
  have hskip : ∀ nd, collectSchemaRefs name allSchemas nd = nd := by
    intro nd
    rw [collectSchemaRefs, collectSchemaRefsF]
    by_cases hmem : name ∈ nd
    · rw [if_pos hmem]
    · rw [if_neg hmem, hn]
  refine ⟨hskip, ?_, ?_, ?_⟩
  · intro ms hmem
    have := mem_schemaKeys_isSome (collectNeeded_mem_keys allSchemas ms hmem)
    rw [hn] at this
    cases this
  · intro ms hmem
    rw [collectSchemas_map_name, (sortStrings_perm _).mem_iff] at hmem
    have := mem_schemaKeys_isSome (collectNeeded_mem_keys allSchemas ms hmem)
    rw [hn] at this
    cases this
  · intro i t f d props items addProps df en rq ro an nd
    rw [collectSchemaRefsFromSchema, collectSchemaRefsFromSchema,
      collectFromSchema_eq, collectFromSchema_eq]
    by_cases hne : name = ""
    · rw [hne]
    · rw [if_pos hne, hskip nd]
      rw [if_neg (by simp)]

/-- C5 witness: the dangling name `Missing` is skipped on a concrete
one-schema mapping. -/
theorem dangling_reference_skipped_witness :
    (collectSchemaRefs "Missing" oneSchemaMap ["B"] = ["B"]) ∧
    ("Missing" ∉ collectNeeded oneSchemaMap [] []) ∧
    (collectSchemaRefsFromSchema (refOnly "Missing") oneSchemaMap [] =
      collectSchemaRefsFromSchema (refOnly "") oneSchemaMap []) := by
  obtain ⟨h1, h2, -, h4⟩ := dangling_reference_skipped oneSchemaMap "Missing" rfl
  exact ⟨h1 ["B"], h2 [], h4 "" "" "" [] [] none none "" [] false false none []⟩

/-! ### C10 machinery: enumeration-order independence of the emitted orders -/

/-- Two sorted permutations of each other are equal, provided the order is
antisymmetric on the members of the list (global antisymmetry is not needed:
with unique names, distinct entries never tie). -/
theorem eq_of_perm_of_sorted_local {α : Type} {r : α → α → Prop} :
    ∀ {l1 l2 : List α}, l1.Perm l2 → List.Sorted r l1 → List.Sorted r l2 →
      (∀ a ∈ l1, ∀ b ∈ l1, r a b → r b a → a = b) → l1 = l2 := by
  intro l1
  induction l1 with
  | nil =>
    intro l2 hp _ _ _
    exact hp.nil_eq
  | cons a t1 ih =>
    intro l2 hp hs1 hs2 hloc
    cases l2 with
    | nil => exact absurd hp.eq_nil (List.cons_ne_nil a t1)
    | cons b t2 =>
      have hab : a ∈ b :: t2 := hp.mem_iff.mp (List.mem_cons_self a t1)
      have hba : b ∈ a :: t1 := hp.mem_iff.mpr (List.mem_cons_self b t2)
      have heq : a = b := by
        rcases List.mem_cons.mp hab with h | h
        · exact h
        rcases List.mem_cons.mp hba with h' | h'
        · exact h'.symm
        · have rba : r b a := (List.sorted_cons.mp hs2).1 a h
          have rab : r a b := (List.sorted_cons.mp hs1).1 b h'
          exact hloc a (List.mem_cons_self a t1) b (List.mem_cons_of_mem a h') rab rba
      subst heq
      rw [ih hp.cons_inv (List.sorted_cons.mp hs1).2 (List.sorted_cons.mp hs2).2
        (fun x hx y hy => hloc x (List.mem_cons_of_mem a hx) y (List.mem_cons_of_mem a hy))]

/-- In an association list with unique keys, a key determines its value. -/
theorem assoc_entry_unique {α : Type} :
    ∀ {l : List (String × α)}, (l.map Prod.fst).Nodup →
      ∀ {k : String} {v w : α}, (k, v) ∈ l → (k, w) ∈ l → v = w := by
  intro l
  induction l with
  | nil =>
    intro _ k v w hv
    cases hv
  | cons p rest ih =>
    intro hnd k v w hv hw
    rw [List.map_cons, List.nodup_cons] at hnd
    rcases List.mem_cons.mp hv with hv | hv <;> rcases List.mem_cons.mp hw with hw | hw
    · rw [← hv] at hw
      exact (Prod.mk.injEq _ _ _ _).mp hw.symm |>.2
    · exfalso
      apply hnd.1
      rw [← hv]
      exact List.mem_map.mpr ⟨(k, w), hw, rfl⟩
    · exfalso
      apply hnd.1
      rw [← hw]
      exact List.mem_map.mpr ⟨(k, v), hv, rfl⟩
    · exact ih hnd.2 hv hw

theorem mem_of_lookupName_eq_some {α : Type} :
    ∀ {l : List (String × α)} {k : String} {v : α},
      lookupName l k = some v → (k, v) ∈ l := by
  intro l
  induction l with
  | nil =>
    intro k v h
    cases h
  | cons p rest ih =>
    intro k v h
    obtain ⟨n, w⟩ := p
    rw [lookupName] at h
    by_cases hn : n = k
    · rw [if_pos hn] at h
      injection h with h
      rw [hn, h]
      exact List.mem_cons_self _ _
    · rw [if_neg hn] at h
      exact List.mem_cons_of_mem _ (ih h)

theorem lookupName_eq_some_of_mem {α : Type} :
    ∀ {l : List (String × α)}, (l.map Prod.fst).Nodup →
      ∀ {k : String} {v : α}, (k, v) ∈ l → lookupName l k = some v := by
  intro l
  induction l with
  | nil =>
    intro _ k v h
    cases h
  | cons p rest ih =>
    intro hnd k v h
    obtain ⟨n, w⟩ := p
    rw [List.map_cons, List.nodup_cons] at hnd
    rw [lookupName]
    rcases List.mem_cons.mp h with h | h
    · obtain ⟨h1, h2⟩ := (Prod.mk.injEq _ _ _ _).mp h.symm
      rw [if_pos h1, h2]
    · by_cases hn : n = k
      · exfalso
        apply hnd.1
        rw [hn]
        exact List.mem_map.mpr ⟨(k, v), h, rfl⟩
      · rw [if_neg hn]
        exact ih hnd.2 h

theorem lookupName_eq_none_iff {α : Type} :
    ∀ {l : List (String × α)} {k : String},
      lookupName l k = none ↔ k ∉ l.map Prod.fst := by
  intro l
  induction l with
  | nil =>
    intro k
    simp [lookupName]
  | cons p rest ih =>
    intro k
    obtain ⟨n, w⟩ := p
    rw [lookupName, List.map_cons]
    by_cases hn : n = k
    · rw [if_pos hn]
      simp [hn]
    · rw [if_neg hn]
      rw [List.mem_cons]
      constructor
      · intro h hc
        rcases hc with hc | hc
        · exact hn hc.symm
        · exact ih.mp h hc
      · intro h
        exact ih.mpr (fun hc => h (.inr hc))

/-- Go map lookup is independent of the enumeration order of the entries. -/
theorem lookupName_perm {α : Type} {l1 l2 : List (String × α)} (hp : l1.Perm l2)
    (hnd : (l1.map Prod.fst).Nodup) (k : String) : lookupName l1 k = lookupName l2 k := by
  have hnd2 : (l2.map Prod.fst).Nodup := ((hp.map Prod.fst).nodup_iff).mp hnd
  cases h : lookupName l1 k with
  | none =>
    rw [lookupName_eq_none_iff] at h
    rw [eq_comm, lookupName_eq_none_iff]
    exact fun hc => h ((hp.map Prod.fst).mem_iff.mpr hc)
  | some v =>
    rw [eq_comm]
    exact lookupName_eq_some_of_mem hnd2 (hp.mem_iff.mp (mem_of_lookupName_eq_some h))

/-- Schema-graph reachability is independent of the enumeration order of the
schema mapping. -/
theorem reaches_perm {as1 as2 : List (String × Schema)} (hp : as1.Perm as2)
    (hnd : (as1.map Prod.fst).Nodup) {e x : String}
    (h : Reaches as1 e x) : Reaches as2 e x := by
  induction h with
  | refl a => exact .refl a
  | step s b hl hb _ ih =>
    exact .step s b (by rw [← lookupName_perm hp hnd]; exact hl) hb ih

/-- With unique parameter names, a `ParamInfo` entry is determined by its
name. -/
theorem paramInfo_name_inj {params : List (String × Parameter)}
    (hnd : (params.map Prod.fst).Nodup) {a b : ParamInfo}
    (ha : a ∈ params.map (fun p => ParamInfo.mk p.1 p.2))
    (hb : b ∈ params.map (fun p => ParamInfo.mk p.1 p.2))
    (hn : a.name = b.name) : a = b := by
  obtain ⟨⟨k, v⟩, hkv, rfl⟩ := List.mem_map.mp ha
  obtain ⟨⟨k2, w⟩, hkw, rfl⟩ := List.mem_map.mp hb
  dsimp only at hn
  subst hn
  rw [assoc_entry_unique hnd hkv hkw]

/-- With unique property names, a `PropertyInfo` entry is determined by its
name. -/
theorem propInfo_name_inj {props : List (String × Schema)} (reqSet : List String)
    (as : List (String × Schema)) (hnd : (props.map Prod.fst).Nodup) {a b : PropertyInfo}
    (ha : a ∈ props.map (fun p =>
      PropertyInfo.mk p.1 p.2 (reqSet.contains p.1 || p.2.required) as))
    (hb : b ∈ props.map (fun p =>
      PropertyInfo.mk p.1 p.2 (reqSet.contains p.1 || p.2.required) as))
    (hn : a.name = b.name) : a = b := by
  obtain ⟨⟨k, v⟩, hkv, rfl⟩ := List.mem_map.mp ha
  obtain ⟨⟨k2, w⟩, hkw, rfl⟩ := List.mem_map.mp hb
  dsimp only at hn
  subst hn
  rw [assoc_entry_unique hnd hkv hkw]

/-- The parameter sort is independent of the enumeration order of the
parameter map (unique names). -/
theorem sortedParamList_perm (po : List String) {pm1 pm2 : List (String × Parameter)}
    (hp : pm1.Perm pm2) (hnd : (pm1.map Prod.fst).Nodup) :
    List.insertionSort (fun a b => paramLess po b a = false)
        (pm1.map (fun p => ParamInfo.mk p.1 p.2)) =
      List.insertionSort (fun a b => paramLess po b a = false)
        (pm2.map (fun p => ParamInfo.mk p.1 p.2)) := by
  have hs1 : List.Sorted (fun a b => paramLess po b a = false)
      (List.insertionSort (fun a b => paramLess po b a = false)
        (pm1.map (fun p => ParamInfo.mk p.1 p.2))) :=
    sortedParams_sorted ⟨"m", ⟨"", "", "", [], pm1, po, none, none, []⟩, "", ""⟩
  have hs2 : List.Sorted (fun a b => paramLess po b a = false)
      (List.insertionSort (fun a b => paramLess po b a = false)
        (pm2.map (fun p => ParamInfo.mk p.1 p.2))) :=
    sortedParams_sorted ⟨"m", ⟨"", "", "", [], pm2, po, none, none, []⟩, "", ""⟩
  refine eq_of_perm_of_sorted_local
    ((List.perm_insertionSort _ _).trans ((hp.map _).trans
      (List.perm_insertionSort _ _).symm)) hs1 hs2 ?_
  intro a ha b hb hab hba
  have ha2 : a ∈ pm1.map (fun p => ParamInfo.mk p.1 p.2) :=
    (List.perm_insertionSort _ _).mem_iff.mp ha
  have hb2 : b ∈ pm1.map (fun p => ParamInfo.mk p.1 p.2) :=
    (List.perm_insertionSort _ _).mem_iff.mp hb
  rcases tripLt_cases (paramKey po a) (paramKey po b) with h | h | h
  · exact absurd h (not_tripLt_of_paramLess_false hba)
  · exact absurd h (not_tripLt_of_paramLess_false hab)
  · exact paramInfo_name_inj hnd ha2 hb2 (string_ext (congrArg (fun t => t.2.2) h))

/-- The property sort is independent of the enumeration order of the
property map (unique names). -/
theorem sortedPropList_perm (reqSet : List String) (as : List (String × Schema))
    {ps1 ps2 : List (String × Schema)} (hp : ps1.Perm ps2)
    (hnd : (ps1.map Prod.fst).Nodup) :
    List.insertionSort (fun a b => propLess b a = false)
        (ps1.map (fun p => PropertyInfo.mk p.1 p.2 (reqSet.contains p.1 || p.2.required) as)) =
      List.insertionSort (fun a b => propLess b a = false)
        (ps2.map (fun p => PropertyInfo.mk p.1 p.2 (reqSet.contains p.1 || p.2.required) as)) := by
  have hs1 : List.Sorted (fun a b => propLess b a = false)
      (List.insertionSort (fun a b => propLess b a = false)
        (ps1.map (fun p =>
          PropertyInfo.mk p.1 p.2 (reqSet.contains p.1 || p.2.required) as))) :=
    sortedProperties_sorted ⟨"S", .mk "" "" "" [] ps1 none none "" "" [] false false none,
      as, reqSet⟩
  have hs2 : List.Sorted (fun a b => propLess b a = false)
      (List.insertionSort (fun a b => propLess b a = false)
        (ps2.map (fun p =>
          PropertyInfo.mk p.1 p.2 (reqSet.contains p.1 || p.2.required) as))) :=
    sortedProperties_sorted ⟨"S", .mk "" "" "" [] ps2 none none "" "" [] false false none,
      as, reqSet⟩
  refine eq_of_perm_of_sorted_local
    ((List.perm_insertionSort _ _).trans ((hp.map _).trans
      (List.perm_insertionSort _ _).symm)) hs1 hs2 ?_
  intro a ha b hb hab hba
  have ha2 := (List.perm_insertionSort _ _).mem_iff.mp ha
  have hb2 := (List.perm_insertionSort _ _).mem_iff.mp hb
  rcases tripLt_cases (propKey a) (propKey b) with h | h | h
  · exact absurd h (not_tripLt_of_propLess_false hba)
  · exact absurd h (not_tripLt_of_propLess_false hab)
  · exact propInfo_name_inj reqSet as hnd ha2 hb2 (string_ext (congrArg (fun t => t.2.2) h))

/-- The emitted dependency-list names are independent of the enumeration
order of the schema mapping (unique names). -/
theorem collectSchemas_names_perm (ms : List MethodInfo)
    {as1 as2 : List (String × Schema)} (hp : as1.Perm as2)
    (hnd : (as1.map Prod.fst).Nodup) :
    (collectSchemas ms as1).map SchemaInfo.name =
      (collectSchemas ms as2).map SchemaInfo.name := by
  haveI : IsAntisymm String (fun a b => strLe a b = true) := ⟨fun a b => strLe_antisymm⟩
  have hnd2 : (as2.map Prod.fst).Nodup := ((hp.map Prod.fst).nodup_iff).mp hnd
  rw [collectSchemas_map_name, collectSchemas_map_name]
  have hmemiff : ∀ x, x ∈ collectNeeded as1 ms [] ↔ x ∈ collectNeeded as2 ms [] := by
    intro x
    rw [collectNeeded_char, collectNeeded_char]
    constructor
    · rintro ⟨hs, e, he, hr⟩
      exact ⟨by rw [← lookupName_perm hp hnd]; exact hs, e, he, reaches_perm hp hnd hr⟩
    · rintro ⟨hs, e, he, hr⟩
      exact ⟨by rw [lookupName_perm hp hnd]; exact hs, e, he, reaches_perm hp.symm hnd2 hr⟩
  have hn1 : (sortStrings (collectNeeded as1 ms [])).Nodup :=
    ((sortStrings_perm _).nodup_iff).mpr (collectNeeded_nodup as1 ms)
  have hn2 : (sortStrings (collectNeeded as2 ms [])).Nodup :=
    ((sortStrings_perm _).nodup_iff).mpr (collectNeeded_nodup as2 ms)
  have hperm : (sortStrings (collectNeeded as1 ms [])).Perm
      (sortStrings (collectNeeded as2 ms [])) := by
    rw [List.perm_ext_iff_of_nodup hn1 hn2]
    intro x
    rw [(sortStrings_perm _).mem_iff, (sortStrings_perm _).mem_iff]
    exact hmemiff x
  exact List.eq_of_perm_of_sorted hperm (sortStrings_sorted _) (sortStrings_sorted _)

/-! ### C10: the emitted orderings are a function of the document alone -/

/-- C10.  Generation is deterministic with respect to the enumeration order
of the underlying name-keyed maps: permuting the method map leaves
`SortedMethodNames` unchanged; permuting the parameter map of a method (with
unique names) leaves `SortedParams` unchanged; permuting the property map of
a schema (with unique names) leaves `SortedProperties` unchanged; and
permuting the schema mapping (with unique names) leaves the emitted
dependency-list names unchanged — each sorted order is a total order on the
unique-name entries, determined by the document alone. -/
theorem deterministic_orderings :
    (∀ d1 d2 : Document,
      (d1.AllMethods.map Prod.fst).Perm (d2.AllMethods.map Prod.fst) →
      d1.SortedMethodNames = d2.SortedMethodNames) ∧
    (∀ m1 m2 : MethodInfo,
      m1.method.parameters.Perm m2.method.parameters →
      m1.method.parameterOrder = m2.method.parameterOrder →
      (m1.method.parameters.map Prod.fst).Nodup →
      m1.SortedParams = m2.SortedParams) ∧
    (∀ s1 s2 : SchemaInfo,
      s1.schema.properties.Perm s2.schema.properties →
      s1.requiredSet = s2.requiredSet → s1.allSchemas = s2.allSchemas →
      (s1.schema.properties.map Prod.fst).Nodup →
      s1.SortedProperties = s2.SortedProperties) ∧
    (∀ (ms : List MethodInfo) (as1 as2 : List (String × Schema)),
      as1.Perm as2 → (as1.map Prod.fst).Nodup →
      (collectSchemas ms as1).map SchemaInfo.name =
        (collectSchemas ms as2).map SchemaInfo.name) := by
  refine ⟨?_, ?_, ?_, fun ms as1 as2 hp hnd => collectSchemas_names_perm ms hp hnd⟩
  · intro d1 d2 hp
    haveI : IsAntisymm String (fun a b => strLe a b = true) := ⟨fun a b => strLe_antisymm⟩
    rw [Document.SortedMethodNames, Document.SortedMethodNames]
    exact List.eq_of_perm_of_sorted
      ((sortStrings_perm _).trans (hp.trans (sortStrings_perm _).symm))
      (sortStrings_sorted _) (sortStrings_sorted _)
  · intro m1 m2 hp hpo hnd
    have e1 : m1.SortedParams =
        List.insertionSort (fun a b => paramLess m1.method.parameterOrder b a = false)
          (m1.method.parameters.map (fun p => ParamInfo.mk p.1 p.2)) := rfl
    have e2 : m2.SortedParams =
        List.insertionSort (fun a b => paramLess m2.method.parameterOrder b a = false)
          (m2.method.parameters.map (fun p => ParamInfo.mk p.1 p.2)) := rfl
    rw [e1, e2, ← hpo]
    exact sortedParamList_perm m1.method.parameterOrder hp hnd
  · intro s1 s2 hp hrs has hnd
    have e1 : s1.SortedProperties =
        List.insertionSort (fun a b => propLess b a = false)
          (s1.schema.properties.map (fun p =>
            PropertyInfo.mk p.1 p.2 (s1.requiredSet.contains p.1 || p.2.required)
              s1.allSchemas)) := rfl
    have e2 : s2.SortedProperties =
        List.insertionSort (fun a b => propLess b a = false)
          (s2.schema.properties.map (fun p =>
            PropertyInfo.mk p.1 p.2 (s2.requiredSet.contains p.1 || p.2.required)
              s2.allSchemas)) := rfl
    rw [e1, e2, ← hrs, ← has]
    exact sortedPropList_perm s1.requiredSet s1.allSchemas hp hnd

/-- C10 witness: swapping the enumeration order of a concrete method map,
parameter map, property map and schema mapping leaves each emitted order
unchanged. -/
theorem deterministic_orderings_witness :
    (Document.SortedMethodNames
        ⟨"", "", "", "", [], [], [],
          [("b", mkMethod [] [] none none), ("a", mkMethod [] [] none none)], []⟩ =
      Document.SortedMethodNames
        ⟨"", "", "", "", [], [], [],
          [("a", mkMethod [] [] none none), ("b", mkMethod [] [] none none)], []⟩) ∧
    (MethodInfo.SortedParams
        ⟨"m", ⟨"", "", "", [],
          [("x", mkParam "string" false), ("y", mkParam "string" true)], [],
          none, none, []⟩, "", ""⟩ =
      MethodInfo.SortedParams
        ⟨"m", ⟨"", "", "", [],
          [("y", mkParam "string" true), ("x", mkParam "string" false)], [],
          none, none, []⟩, "", ""⟩) ∧
    (SchemaInfo.SortedProperties
        (NewSchemaInfo "S"
          (objSchema [("p", scalarSchema "string"), ("q", scalarSchemaReq "string")]) []) =
      SchemaInfo.SortedProperties
        (NewSchemaInfo "S"
          (objSchema [("q", scalarSchemaReq "string"), ("p", scalarSchema "string")]) [])) ∧
    ((collectSchemas [] [("A", scalarSchema "string"), ("B", scalarSchema "integer")]).map
        SchemaInfo.name =
      (collectSchemas [] [("B", scalarSchema "integer"), ("A", scalarSchema "string")]).map
        SchemaInfo.name) := by
  obtain ⟨w1, w2, w3, w4⟩ := deterministic_orderings
  refine ⟨w1 _ _ (List.Perm.swap "a" "b" []), ?_, ?_, ?_⟩
  · exact w2 _ _ (List.Perm.swap ("y", mkParam "string" true) ("x", mkParam "string" false) [])
      rfl (by decide)
  · exact w3 _ _ (List.Perm.swap ("q", scalarSchemaReq "string") ("p", scalarSchema "string") [])
      rfl rfl (by decide)
  · exact w4 [] _ _ (List.Perm.swap ("B", scalarSchema "integer") ("A", scalarSchema "string") [])
      (by decide)

end Discovery
